import Mathlib

/-!
Verification development for the engine dispatch and result-merge pipeline of
the searxng-style meta-search aggregator (Rust sources under src/).

Shallow embedding notes:
- f64 scores are modelled by the type F64 below: either NaN or an exact
  rational value.  Exact rationals are represented by the type Q (an integer
  numerator with a positive natural denominator, not normalised) so that all
  score arithmetic and comparisons reduce inside the kernel.  The concrete
  score values exercised by the claims (1.0, 0.8, 0.5, 1.8, weight/(i+1))
  are exactly representable in f64, so no floating rounding is modelled away.
- Strings are processed as lists of characters; the Rust url crate
  (Url::parse, query_pairs, to_string) is external to the repository and is
  modelled from the specification section 4.E (scheme://host/path?query#fragment
  splitting, lower-casing of scheme and host, fragment removal, tracking
  parameter filtering, re-serialisation; percent-encoding and the finer
  validation rules of the WHATWG parser are not modelled).
- The ammonia::clean HTML sanitiser is external as well; it is passed as an
  abstract function (clean : String -> String) to the aggregator model.
- Rust HashMap contents are modelled by an association list in key-insertion
  order; HashMap iteration order is unspecified in Rust, so theorems that
  depend on the order in which into_values yields the merged results
  quantify over permutations of that list (see possibleOutput).
-/

/-- Exact rational used for f64 score values: integer numerator and positive
natural denominator, not normalised, so that every operation reduces in the
kernel. -/
structure Q where
  num : Int
  den : Nat
  den_pos : 0 < den
deriving DecidableEq

/-- Embedding of a Q value into the mathematical rationals, used only in
proofs (never evaluated). -/
def Q.val (a : Q) : ℚ := (a.num : ℚ) / (a.den : ℚ)

/-- Exact addition of scores, mirroring f64 addition on the exactly
representable values that occur in the claims. -/
def Q.add (a b : Q) : Q :=
  ⟨a.num * b.den + b.num * a.den, a.den * b.den, Nat.mul_pos a.den_pos b.den_pos⟩

/-- Division of a score by a positive natural number, used for the
weight/(index+1) position decay of the registry. -/
def Q.divNat (a : Q) (n : Nat) (h : 0 < n) : Q :=
  ⟨a.num, a.den * n, Nat.mul_pos a.den_pos h⟩

/-- Total comparison of exact rationals by cross multiplication; this is the
order f64 partial_cmp induces on non-NaN values. -/
def Q.cmp (a b : Q) : Ordering :=
  if a.num * b.den < b.num * a.den then Ordering.lt
  else if a.num * b.den = b.num * a.den then Ordering.eq
  else Ordering.gt

/-- Score model for f64: either NaN or an exact rational value. -/
inductive F64 where
  | nan : F64
  | val : Q → F64
deriving DecidableEq

/-- Addition on modelled f64 values: NaN is absorbing, as in IEEE 754. -/
def F64.add : F64 → F64 → F64
  | F64.val a, F64.val b => F64.val (a.add b)
  | _, _ => F64.nan

/-- Model of Rust f64::partial_cmp: None exactly when either side is NaN. -/
def F64.pcmp : F64 → F64 → Option Ordering
  | F64.val a, F64.val b => some (a.cmp b)
  | _, _ => none

/-! Character level helpers shared by the URL canonicaliser model. -/
/-- ASCII lower-casing of one character, as performed on scheme and host by
the url crate during parsing. -/
def lowerChar (c : Char) : Char :=
  if 65 ≤ c.toNat ∧ c.toNat ≤ 90 then Char.ofNat (c.toNat + 32) else c

/-- Splits a character list at the first occurrence of c: returns the part
before and, when c occurs, the part after it. -/
def splitFirst (c : Char) : List Char → List Char × Option (List Char)
  | [] => ([], none)
  | x :: xs =>
    if x = c then ([], some xs)
    else (x :: (splitFirst c xs).1, (splitFirst c xs).2)

/-- Splits a character list at every occurrence of c (the Rust str::split
semantics: n separators produce n+1 pieces, possibly empty). -/
def splitAll (c : Char) : List Char → List (List Char)
  | [] => [[]]
  | x :: xs =>
    if x = c then [] :: splitAll c xs
    else
      match splitAll c xs with
      | [] => [[x]]
      | h :: t => (x :: h) :: t

/-! URL canonicaliser model.

Modelled from the spec: the url crate used by src/src/engines/aggregator.rs
(Url::parse, set_fragment, query_pairs, set_query, query_pairs_mut,
to_string) is an external dependency, so its behaviour is modelled from
specification section 4.E: a URL splits as scheme://host/path?query#fragment,
scheme and host are lower-cased during parsing, parsing fails when the
scheme separator is missing or scheme or host is empty, the query parses
into key=value pairs split on the ampersand (empty segments skipped), and
re-serialisation emits a bare host with a trailing slash. -/
/-- Parsed URL: scheme and host stored lower-cased, path empty or starting
with a slash, query parsed into pairs when a question mark was present. -/
structure UrlC where
  scheme : List Char
  host : List Char
  path : List Char
  query : Option (List (List Char × List Char))
  fragment : Option (List Char)
deriving DecidableEq

/-- Splits one key=value segment at the first equals sign; a segment with no
equals sign yields an empty value. -/
def parsePair (seg : List Char) : List Char × List Char :=
  ((splitFirst '=' seg).1, ((splitFirst '=' seg).2).getD [])

/-- Parses a raw query string into key/value pairs: split on ampersands,
skip empty segments, split each segment at its first equals sign. -/
def parseQuery (s : List Char) : List (List Char × List Char) :=
  (splitAll '&' s).filterMap (fun seg => if seg = [] then none else some (parsePair seg))

/-- Model of Url::parse on a character list.  Returns none when the
scheme separator is absent or the scheme or host is empty. -/
def parseUrl (s : List Char) : Option UrlC :=
  match splitFirst ':' (splitFirst '?' (splitFirst '#' s).1).1 with
  | (sch, some ('/' :: '/' :: rest)) =>
    if sch = [] then none
    else
      match splitFirst '/' rest with
      | (host, pathRest) =>
        if host = [] then none
        else some {
          scheme := sch.map lowerChar
          host := host.map lowerChar
          path := match pathRest with
            | none => []
            | some p => '/' :: p
          query := ((splitFirst '?' (splitFirst '#' s).1).2).map parseQuery
          fragment := (splitFirst '#' s).2 }
  | _ => none

/-- Joins query segments with ampersands. -/
def joinAmp : List (List Char) → List Char
  | [] => []
  | [x] => x
  | x :: y :: t => x ++ '&' :: joinAmp (y :: t)

/-- Serialises key/value pairs as k=v joined with ampersands (the
form_urlencoded serialiser always writes the equals sign). -/
def serializeQuery (ps : List (List Char × List Char)) : List Char :=
  joinAmp (ps.map (fun kv => kv.1 ++ '=' :: kv.2))

/-- Model of Url::to_string: a URL with an empty path gains a trailing
slash (standard URL serialisation, spec 4.E rule 7). -/
def serializeUrl (u : UrlC) : List Char :=
  u.scheme ++ ':' :: '/' :: '/' :: u.host
    ++ (if u.path = [] then ['/'] else u.path)
    ++ (match u.query with
        | none => []
        | some ps => '?' :: serializeQuery ps)
    ++ (match u.fragment with
        | none => []
        | some f => '#' :: f)

/-- The tracking query parameters removed by normalize_url
(src/src/engines/aggregator.rs lines 16-25). -/
def params_to_remove : List (List Char) :=
  [ "utm_source".toList, "utm_medium".toList, "utm_campaign".toList,
    "utm_term".toList, "utm_content".toList, "fbclid".toList,
    "gclid".toList, "msclkid".toList ]

/-- The mutation normalize_url performs on a parsed URL: drop the fragment,
filter the tracking parameters out of the query pairs, and drop the query
entirely when no pair remains (aggregator.rs lines 11-37). -/
def removeTracking (u : UrlC) : UrlC :=
  match u.query with
  | none => { u with fragment := none }
  | some ps =>
    let kept := ps.filter (fun kv => !(decide (kv.1 ∈ params_to_remove)))
    { u with fragment := none, query := if kept = [] then none else some kept }

/-- Model of normalize_url (aggregator.rs lines 9-43): parse, normalise and
re-serialise; return the input unchanged when parsing fails. -/
def normalize_url (s : String) : String :=
  match parseUrl s.toList with
  | some u => (serializeUrl (removeTracking u)).asString
  | none => s

/-- Substring test on character lists (Rust str::contains with a str
pattern). -/
def hasSub (needle : List Char) : List Char → Bool
  | [] => needle.isEmpty
  | c :: cs => needle.isPrefixOf (c :: cs) || hasSub needle cs

/-- Host blocklist test of the aggregator (aggregator.rs lines 58-65): a
result is dropped when its URL parses, has a host, and the host contains
some blocklist entry as a substring. -/
def isBlocked (blocklist : List String) (urlStr : String) : Bool :=
  match parseUrl urlStr.toList with
  | some u => blocklist.any (fun b => hasSub b.toList u.host)
  | none => false

/-! Invariants of parsed URLs and the canonicalisation idempotence proof. -/
/-- Restructured entry point of parseUrl used by the proofs below: the part
of the URL before query and fragment splits into scheme, host and path. -/
def parseCore (bq : List Char) : Option (List Char × List Char × List Char) :=
  match splitFirst ':' bq with
  | (sch, some ('/' :: '/' :: rest)) =>
    if sch = [] then none
    else
      match splitFirst '/' rest with
      | (host, pathRest) =>
        if host = [] then none
        else some (sch, host,
          match pathRest with
          | none => []
          | some p => '/' :: p)
  | _ => none

/-- Invariants holding for every URL produced by parseUrl; they are what
makes re-parsing the serialised form give back the same URL. -/
structure GoodUrl (u : UrlC) : Prop where
  scheme_ne : u.scheme ≠ []
  host_ne : u.host ≠ []
  scheme_no : ∀ c ∈ u.scheme, c ≠ ':' ∧ c ≠ '?' ∧ c ≠ '#'
  host_no : ∀ c ∈ u.host, c ≠ '/' ∧ c ≠ '?' ∧ c ≠ '#'
  path_shape : u.path = [] ∨ ∃ p, u.path = '/' :: p
  path_no : ∀ c ∈ u.path, c ≠ '?' ∧ c ≠ '#'
  query_no : ∀ ps, u.query = some ps → ∀ kv ∈ ps,
      ('&' ∉ kv.1 ∧ '=' ∉ kv.1 ∧ '#' ∉ kv.1) ∧ ('&' ∉ kv.2 ∧ '#' ∉ kv.2)
  lower_scheme : u.scheme.map lowerChar = u.scheme
  lower_host : u.host.map lowerChar = u.host

/-! Data model (src/src/models.rs) and aggregator (src/src/engines/aggregator.rs). -/
/-- Tagged result content (models.rs lines 52-59); f64 coordinates are
modelled as exact rationals. -/
inductive ResultContent where
  | text : String → ResultContent
  | image : String → Option String → ResultContent
  | video : String → Option String → Option String → ResultContent
  | map : Q → Q → Option Nat → ResultContent

/-- A search result (models.rs lines 61-70); the metadata HashMap is carried
as an association list (it is never inspected by the code under study). -/
structure SearchResult where
  url : String
  title : String
  content : ResultContent
  engines : List String
  score : F64
  metadata : List (String × String)

/-- HTML sanitisation step of the aggregator (aggregator.rs lines 67-70):
Text content is passed through the external ammonia::clean, here an
abstract function. -/
def sanitizeResult (clean : String → String) (r : SearchResult) : SearchResult :=
  match r.content with
  | ResultContent.text t => { r with content := ResultContent.text (clean t) }
  | _ => r

/-- Engine list merge (aggregator.rs lines 81-86): push each incoming engine
id not already present. -/
def mergeEngines (existing incoming : List String) : List String :=
  incoming.foldl (fun acc g => if g ∈ acc then acc else acc ++ [g]) existing

/-- Merge of an incoming result into the existing entry with the same key
(aggregator.rs lines 74-87): scores are summed and engine lists merged;
title, content and metadata are left untouched. -/
def mergeResult (existing incoming : SearchResult) : SearchResult :=
  { existing with
    score := existing.score.add incoming.score
    engines := mergeEngines existing.engines incoming.engines }

/-- Association list lookup with string keys, modelling HashMap::get. -/
def lookupA {α : Type} (k : String) : List (String × α) → Option α
  | [] => none
  | kv :: rest => if kv.1 = k then some kv.2 else lookupA k rest

/-- In-place update of the entry with the given key, modelling mutation
through HashMap::get_mut. -/
def updateA {α : Type} (k : String) (f : α → α) :
    List (String × α) → List (String × α)
  | [] => []
  | kv :: rest => if kv.1 = k then (kv.1, f kv.2) :: rest else kv :: updateA k f rest

/-- Key replacing insertion, modelling HashMap::insert: an existing entry
with the same key is replaced, otherwise the binding is added. -/
def insertA {α : Type} (k : String) (v : α) : List (String × α) → List (String × α)
  | [] => [(k, v)]
  | kv :: rest => if kv.1 = k then (k, v) :: rest else kv :: insertA k v rest

/-- One iteration of the aggregate loop (aggregator.rs lines 57-98): skip
blocked hosts, sanitise text content, canonicalise the URL and merge into
the keyed map (modelled as an association list in key-insertion order). -/
def aggStep (clean : String → String) (blocklist : List String)
    (m : List (String × SearchResult)) (res : SearchResult) :
    List (String × SearchResult) :=
  if isBlocked blocklist res.url then m
  else
    let res1 := sanitizeResult clean res
    let k := normalize_url res1.url
    match lookupA k m with
    | some _ => updateA k (fun e => mergeResult e res1) m
    | none => m ++ [(k, { res1 with url := k })]

/-- The merge map contents after processing the whole input list. -/
def aggMap (clean : String → String) (results : List SearchResult)
    (blocklist : List String) : List (String × SearchResult) :=
  results.foldl (aggStep clean blocklist) []

/-- The merged results in key-insertion order.  The Rust code obtains them
through HashMap::into_values, whose order is unspecified; theorems that
depend on that order quantify over permutations of this list. -/
def aggregateVals (clean : String → String) (results : List SearchResult)
    (blocklist : List String) : List SearchResult :=
  (aggMap clean results blocklist).map Prod.snd

/-- The sort comparator of aggregate (aggregator.rs lines 103-107):
b.score.partial_cmp(&a.score).unwrap_or(Equal), giving descending score
order with NaN comparing equal to everything. -/
def resCmp (a b : SearchResult) : Ordering :=
  (F64.pcmp b.score a.score).getD Ordering.eq

/-- The sort comparator read as "a may come before b". -/
def resLe (a b : SearchResult) : Bool :=
  resCmp a b != Ordering.gt

/-- Stable insertion into a list sorted by resLe. -/
def orderedInsertR (x : SearchResult) : List SearchResult → List SearchResult
  | [] => [x]
  | y :: ys => if resLe x y then x :: y :: ys else y :: orderedInsertR x ys

/-- Stable sort by descending score, modelling Vec::sort_by with the
comparator above (Rust sort_by is stable; for a comparator that is a total
order, stable plus sorted determines the output uniquely). -/
def sortResults (l : List SearchResult) : List SearchResult :=
  l.foldr orderedInsertR []

/-- Model of aggregate (aggregator.rs lines 54-110) with the merge map
values taken in key-insertion order. -/
def aggregate (clean : String → String) (results : List SearchResult)
    (blocklist : List String) : List SearchResult :=
  sortResults (aggregateVals clean results blocklist)

/-- The set of outputs the Rust aggregate can produce: the merge map values
in some iteration order (HashMap order is unspecified), then stably sorted. -/
def possibleOutput (clean : String → String) (results : List SearchResult)
    (blocklist : List String) (out : List SearchResult) : Prop :=
  ∃ vs, vs.Perm (aggregateVals clean results blocklist) ∧ out = sortResults vs

/-! Circuit breaker (src/src/engines/circuit_breaker.rs). -/
/-- Breaker states (circuit_breaker.rs lines 3-8). -/
inductive CBState where
  | Closed : CBState
  | Open : CBState
  | HalfOpen : CBState
deriving DecidableEq

/-- Breaker state record (circuit_breaker.rs lines 10-17); Instant is
modelled as a natural number time stamp and Duration as a natural number in
the same unit. -/
structure CircuitBreaker where
  state : CBState
  failures : Nat
  last_failure : Option Nat
  failure_threshold : Nat
  cooldown : Nat
deriving DecidableEq

/-- Constructor (circuit_breaker.rs lines 20-28). -/
def CircuitBreaker.new (failure_threshold cooldown : Nat) : CircuitBreaker :=
  ⟨CBState.Closed, 0, none, failure_threshold, cooldown⟩

/-- Model of check (circuit_breaker.rs lines 32-53): the current time is an
explicit argument; last.elapsed() >= cooldown becomes now - last >= cooldown. -/
def CircuitBreaker.check (cb : CircuitBreaker) (now : Nat) : Bool × CircuitBreaker :=
  match cb.state with
  | CBState.Closed => (true, cb)
  | CBState.Open =>
    match cb.last_failure with
    | some last =>
      if cb.cooldown ≤ now - last then (true, { cb with state := CBState.HalfOpen })
      else (false, cb)
    | none => (false, cb)
  | CBState.HalfOpen => (false, cb)

/-- Model of report_success (circuit_breaker.rs lines 55-67). -/
def CircuitBreaker.report_success (cb : CircuitBreaker) : CircuitBreaker :=
  match cb.state with
  | CBState.HalfOpen => { cb with state := CBState.Closed, failures := 0, last_failure := none }
  | CBState.Closed => { cb with failures := 0 }
  | CBState.Open => cb

/-- Model of report_failure (circuit_breaker.rs lines 69-88). -/
def CircuitBreaker.report_failure (cb : CircuitBreaker) (now : Nat) : CircuitBreaker :=
  match cb.state with
  | CBState.Closed =>
    if cb.failure_threshold ≤ cb.failures + 1 then
      { cb with failures := cb.failures + 1, state := CBState.Open, last_failure := some now }
    else { cb with failures := cb.failures + 1 }
  | CBState.HalfOpen => { cb with state := CBState.Open, last_failure := some now }
  | CBState.Open => { cb with last_failure := some now }

/-! Query model (src/src/models.rs) and registry (src/src/engines/registry.rs). -/
/-- Search query (models.rs lines 8-23). -/
structure SearchQuery where
  q : String
  language : String
  page : Nat
  safesearch : Nat
  categories : String
  time_range : String
  format : String

/-- Rust str::trim on a character list (whitespace stripped from both ends). -/
def trimChars (l : List Char) : List Char :=
  ((l.dropWhile Char.isWhitespace).reverse.dropWhile Char.isWhitespace).reverse

/-- Model of SearchQuery::get_categories (models.rs lines 40-49): an empty
categories string defaults to the singleton general, otherwise split on
commas, trim, and drop empty parts. -/
def SearchQuery.get_categories (query : SearchQuery) : List String :=
  if query.categories.toList = [] then ["general"]
  else
    (((splitAll ',' query.categories.toList).map trimChars).filter
      (fun s => !s.isEmpty)).map List.asString

/-- Per-engine configuration (src/src/config.rs lines 6-20 with the
failure_threshold and cooldown fields that registry.rs lines 44-47 reads;
those two fields are absent from the config.rs in this snapshot, an
inconsistency of the checkout, so their defaults are modelled as zero).
The f64 weight is modelled as an exact rational. -/
structure EngineConfig where
  enabled : Bool
  weight : Q
  timeout : Nat
  throttle : Nat
  failure_threshold : Nat
  cooldown : Nat
  tokens : List String
  extra : List (String × String)

/-- Defaults from config.rs lines 22-46. -/
def defaultEngineConfig : EngineConfig :=
  ⟨true, ⟨1, 1, Nat.one_pos⟩, 2, 500, 0, 0, [], []⟩

/-- Registry entry (registry.rs lines 13-19): adapter handle reduced to its
id and declared categories, plus the config snapshot and breaker. -/
structure EngineEntry where
  id : String
  categories : List String
  config : EngineConfig
  breaker : CircuitBreaker

/-- Model of EngineRegistry::register_engine (registry.rs lines 34-57):
look up the config for the adapter id (default when absent), build the
entry with a fresh breaker, and HashMap::insert it, replacing any existing
entry with the same id. -/
def register_engine (settings : List (String × EngineConfig))
    (engines : List (String × EngineEntry)) (id : String) (categories : List String) :
    List (String × EngineEntry) :=
  let config := (lookupA id settings).getD defaultEngineConfig
  insertA id
    ⟨id, categories, config, CircuitBreaker.new config.failure_threshold config.cooldown⟩
    engines

/-- Outcome of one adapter invocation under the registry deadline:
a result list, an EngineError, or deadline exceeded. -/
inductive Outcome where
  | ok : List SearchResult → Outcome
  | err : Outcome
  | deadline : Outcome

/-- Whether the outcome is a success. -/
def Outcome.isOk : Outcome → Bool
  | Outcome.ok _ => true
  | _ => false

/-- Score shaping (registry.rs lines 127-131): the i-th result of a
successful adapter gets score weight / (i + 1). -/
def shapeScores (weight : Q) (rs : List SearchResult) : List SearchResult :=
  rs.enum.map (fun ir =>
    { ir.2 with score := F64.val (weight.divNat (ir.1 + 1) (Nat.succ_pos ir.1)) })

/-- The throttle reservation step (registry.rs lines 95-114): compute the
wait, and the new last_dispatch value written back under the lock. -/
def throttleReserve (last : Option Nat) (now throttleMs : Nat) : Option Nat × Nat :=
  match last with
  | some lastTime =>
    if lastTime + throttleMs > now then
      (some (lastTime + throttleMs - now), lastTime + throttleMs)
    else (none, now)
  | none => (none, now)

/-- The throttle gate as guarded in registry.rs line 94: the reservation
only runs when throttle is positive; otherwise nothing is written and no
sleep happens. -/
def throttleGate (throttleMs : Nat) (last : Option Nat) (now : Nat) :
    Option Nat × Option Nat :=
  if 0 < throttleMs then
    ((throttleReserve last now throttleMs).1, some (throttleReserve last now throttleMs).2)
  else (none, last)

/-- Body of one spawned engine task (registry.rs lines 83-146), given the
outcome its adapter would produce: breaker gate, then on success shape the
scores and report success, on error or deadline report one failure and
contribute nothing. -/
def runEngine (entry : EngineEntry) (outcome : Outcome) (now : Nat) :
    List SearchResult × CircuitBreaker :=
  let c := entry.breaker.check now
  if c.1 then
    match outcome with
    | Outcome.ok results => (shapeScores entry.config.weight results, c.2.report_success)
    | Outcome.err => ([], c.2.report_failure now)
    | Outcome.deadline => ([], c.2.report_failure now)
  else ([], c.2)

/-- Selection predicate of the fan-out loop (registry.rs lines 63-73):
enabled and category match. -/
def selectEngine (qcats : List String) (entry : EngineEntry) : Bool :=
  entry.config.enabled && qcats.any (fun c => entry.categories.contains c)

/-- Model of EngineRegistry::search (registry.rs lines 59-158): fan out to
the selected engines, gather the per-task result lists, and aggregate.
The registry calls aggregate without a blocklist (registry.rs line 157),
modelled as the empty blocklist. -/
def searchModel (clean : String → String) (query : SearchQuery)
    (entries : List (EngineEntry × Outcome)) (now : Nat) : List SearchResult :=
  let qcats := query.get_categories
  let sel := entries.filter (fun eo => selectEngine qcats eo.1)
  let raw := (sel.map (fun eo => (runEngine eo.1 eo.2 now).1)).flatten
  aggregate clean raw []

/-! Lemmas about the merge map and the sort, leading to the claims. -/
/-- The canonical keys of the non-blocked inputs, in input order. -/
def canonKeys (results : List SearchResult) (blocklist : List String) : List String :=
  (results.filter (fun r => !isBlocked blocklist r.url)).map (fun r => normalize_url r.url)

/-- The engine ids of the incoming list not yet seen, in order of first
appearance and without duplicates. -/
def dedupNew : List String → List String → List String
  | [], _ => []
  | g :: gs, seen =>
    if g ∈ seen then dedupNew gs seen else g :: dedupNew gs (seen ++ [g])

/-- Score comparison between results, defined only when neither score is
NaN: the first result's score is at least the second's. -/
def scoreGe (a b : SearchResult) : Prop :=
  match a.score, b.score with
  | F64.val x, F64.val y => y.val ≤ x.val
  | _, _ => False

/-- The comparator-equality class of the score value q: results whose score
compares equal to q, together with NaN scores (the comparator treats NaN as
equal to everything). -/
def scoreClass (q : Q) (r : SearchResult) : Bool :=
  match r.score with
  | F64.val x => decide (x.cmp q = Ordering.eq)
  | F64.nan => true

/-! Theorems. -/

theorem Q.den_cast_pos (a : Q) : (0 : ℚ) < (a.den : ℚ) := by
  exact_mod_cast a.den_pos

theorem Q.cross_lt_iff_val_lt (a b : Q) :
    a.num * b.den < b.num * a.den ↔ a.val < b.val := by
  rw [Q.val, Q.val, div_lt_div_iff₀ a.den_cast_pos b.den_cast_pos]
  constructor
  · intro h
    exact_mod_cast h
  · intro h
    exact_mod_cast h

theorem Q.cross_eq_iff_val_eq (a b : Q) :
    a.num * b.den = b.num * a.den ↔ a.val = b.val := by
  rw [Q.val, Q.val, div_eq_div_iff a.den_cast_pos.ne' b.den_cast_pos.ne']
  constructor
  · intro h
    exact_mod_cast h
  · intro h
    exact_mod_cast h

theorem Q.cmp_eq_lt_iff (a b : Q) : Q.cmp a b = Ordering.lt ↔ a.val < b.val := by
  rw [Q.cmp]
  split_ifs with h1 h2
  · simp [(Q.cross_lt_iff_val_lt a b).mp h1]
  · have h2' := (Q.cross_eq_iff_val_eq a b).mp h2
    simp [h2']
  · have h1' : ¬ a.val < b.val := fun h => h1 ((Q.cross_lt_iff_val_lt a b).mpr h)
    simp [h1']

theorem Q.cmp_eq_eq_iff (a b : Q) : Q.cmp a b = Ordering.eq ↔ a.val = b.val := by
  rw [Q.cmp]
  split_ifs with h1 h2
  · have h1' := (Q.cross_lt_iff_val_lt a b).mp h1
    simp [h1'.ne]
  · have h2' := (Q.cross_eq_iff_val_eq a b).mp h2
    simp [h2']
  · have h2' : ¬ a.val = b.val := fun h => h2 ((Q.cross_eq_iff_val_eq a b).mpr h)
    simp [h2']

theorem Q.cmp_eq_gt_iff (a b : Q) : Q.cmp a b = Ordering.gt ↔ b.val < a.val := by
  rw [Q.cmp]
  split_ifs with h1 h2
  · have h1' := (Q.cross_lt_iff_val_lt a b).mp h1
    simp [lt_asymm h1']
  · have h2' := (Q.cross_eq_iff_val_eq a b).mp h2
    simp [h2']
  · have h1' : ¬ a.val < b.val := fun h => h1 ((Q.cross_lt_iff_val_lt a b).mpr h)
    have h2' : ¬ a.val = b.val := fun h => h2 ((Q.cross_eq_iff_val_eq a b).mpr h)
    have h3 : b.val < a.val := by
      rcases lt_trichotomy a.val b.val with h | h | h
      · exact absurd h h1'
      · exact absurd h h2'
      · exact h
    simp [h3]

theorem char_toNat_ofNat {n : Nat} (h : n.isValidChar) :
    (Char.ofNat n).toNat = n := by
  simp [Char.ofNat, h, Char.ofNatAux, Char.toNat, UInt32.toNat, BitVec.toNat_ofNatLt]

theorem lowerChar_spec (c : Char) :
    (65 ≤ c.toNat ∧ c.toNat ≤ 90 ∧ (lowerChar c).toNat = c.toNat + 32) ∨
      lowerChar c = c := by
  by_cases h : 65 ≤ c.toNat ∧ c.toNat ≤ 90
  · left
    refine ⟨h.1, h.2, ?_⟩
    rw [lowerChar, if_pos h]
    have hv : (c.toNat + 32).isValidChar := by
      left
      omega
    exact char_toNat_ofNat hv
  · right
    rw [lowerChar, if_neg h]

theorem lowerChar_stay (c : Char) (h : ¬(65 ≤ c.toNat ∧ c.toNat ≤ 90)) :
    lowerChar c = c := by
  rw [lowerChar, if_neg h]

theorem lowerChar_idem (c : Char) : lowerChar (lowerChar c) = lowerChar c := by
  rcases lowerChar_spec c with ⟨h1, h2, h3⟩ | h
  · exact lowerChar_stay _ (by omega)
  · rw [h, h]

theorem lowerChar_eq_iff (c d : Char) (hd : d.toNat < 65) :
    lowerChar c = d ↔ c = d := by
  rcases lowerChar_spec c with ⟨h1, h2, h3⟩ | h
  · constructor
    · intro h
      rw [h] at h3
      omega
    · intro h
      rw [h] at h1
      omega
  · rw [h]

theorem map_lowerChar_idem (l : List Char) :
    (l.map lowerChar).map lowerChar = l.map lowerChar := by
  rw [List.map_map]
  exact List.map_congr_left (fun c _ => lowerChar_idem c)

theorem not_mem_map_lowerChar (l : List Char) (d : Char) (hd : d.toNat < 65)
    (h : d ∉ l) : d ∉ l.map lowerChar := by
  intro hmem
  rcases List.mem_map.mp hmem with ⟨c, hc, hcd⟩
  rw [lowerChar_eq_iff c d hd] at hcd
  exact h (hcd ▸ hc)

theorem splitFirst_of_not_mem (c : Char) (s : List Char) (h : c ∉ s) :
    splitFirst c s = (s, none) := by
  induction s with
  | nil => rfl
  | cons x xs ih =>
    rw [List.mem_cons, not_or] at h
    rw [splitFirst, if_neg (fun hxc => h.1 hxc.symm), ih h.2]

theorem splitFirst_append (c : Char) (a b : List Char) (h : c ∉ a) :
    splitFirst c (a ++ c :: b) = (a, some b) := by
  induction a with
  | nil => simp [splitFirst]
  | cons x xs ih =>
    rw [List.mem_cons, not_or] at h
    rw [List.cons_append, splitFirst, if_neg (fun hxc => h.1 hxc.symm), ih h.2]

theorem splitFirst_eq_some (c : Char) {s a b : List Char}
    (h : splitFirst c s = (a, some b)) : s = a ++ c :: b ∧ c ∉ a := by
  induction s generalizing a with
  | nil => simp [splitFirst] at h
  | cons x xs ih =>
    rw [splitFirst] at h
    by_cases hx : x = c
    · rw [if_pos hx] at h
      obtain ⟨rfl, rfl⟩ : ([] : List Char) = a ∧ xs = b := by
        constructor
        · exact congrArg Prod.fst h
        · exact Option.some.inj (congrArg Prod.snd h)
      subst hx
      simp
    · rw [if_neg hx] at h
      have h1 : x :: (splitFirst c xs).1 = a := congrArg Prod.fst h
      have h2 : (splitFirst c xs).2 = some b := congrArg Prod.snd h
      obtain ⟨hs, hnm⟩ := ih (a := (splitFirst c xs).1)
        (by rw [← h2])
      refine ⟨?_, ?_⟩
      · rw [← h1, List.cons_append, ← hs]
      · rw [← h1]
        intro hc
        rcases List.mem_cons.mp hc with hc | hc
        · exact hx hc.symm
        · exact hnm hc

theorem splitFirst_eq_none (c : Char) {s a : List Char}
    (h : splitFirst c s = (a, none)) : s = a ∧ c ∉ a := by
  induction s generalizing a with
  | nil =>
    rw [splitFirst] at h
    obtain rfl : ([] : List Char) = a := congrArg Prod.fst h
    simp
  | cons x xs ih =>
    rw [splitFirst] at h
    by_cases hx : x = c
    · rw [if_pos hx] at h
      exact absurd (congrArg Prod.snd h) (by simp)
    · rw [if_neg hx] at h
      have h1 : x :: (splitFirst c xs).1 = a := congrArg Prod.fst h
      have h2 : (splitFirst c xs).2 = none := congrArg Prod.snd h
      obtain ⟨hs, hnm⟩ := ih (a := (splitFirst c xs).1) (by rw [← h2])
      refine ⟨?_, ?_⟩
      · rw [← h1, ← hs]
      · rw [← h1]
        intro hc
        rcases List.mem_cons.mp hc with hc | hc
        · exact hx hc.symm
        · exact hnm hc

theorem splitAll_ne_nil (c : Char) (s : List Char) : splitAll c s ≠ [] := by
  induction s with
  | nil => simp [splitAll]
  | cons x xs ih =>
    rw [splitAll]
    split
    · simp
    · split
      · simp
      · simp

theorem splitAll_of_not_mem (c : Char) (s : List Char) (h : c ∉ s) :
    splitAll c s = [s] := by
  induction s with
  | nil => rfl
  | cons x xs ih =>
    rw [List.mem_cons, not_or] at h
    rw [splitAll, if_neg (fun hxc => h.1 hxc.symm), ih h.2]

theorem splitAll_append (c : Char) (a b : List Char) (h : c ∉ a) :
    splitAll c (a ++ c :: b) = a :: splitAll c b := by
  induction a with
  | nil => simp [splitAll]
  | cons x xs ih =>
    rw [List.mem_cons, not_or] at h
    rw [List.cons_append, splitAll, if_neg (fun hxc => h.1 hxc.symm), ih h.2]

theorem mem_splitAll (c : Char) (s : List Char) :
    ∀ seg ∈ splitAll c s, c ∉ seg ∧ ∀ x ∈ seg, x ∈ s := by
  induction s with
  | nil =>
    intro seg hseg
    rw [splitAll, List.mem_singleton] at hseg
    subst hseg
    simp
  | cons x xs ih =>
    intro seg hseg
    rw [splitAll] at hseg
    by_cases hx : x = c
    · rw [if_pos hx] at hseg
      rcases List.mem_cons.mp hseg with rfl | hseg
      · simp
      · obtain ⟨h1, h2⟩ := ih seg hseg
        exact ⟨h1, fun y hy => List.mem_cons_of_mem x (h2 y hy)⟩
    · rw [if_neg hx] at hseg
      rcases hsp : splitAll c xs with _ | ⟨hh, tt⟩
      · exact absurd hsp (splitAll_ne_nil c xs)
      · rw [hsp] at hseg
        rcases List.mem_cons.mp hseg with rfl | hseg
        · have hh_mem : hh ∈ splitAll c xs := by
            rw [hsp]
            exact List.mem_cons_self _ _
          obtain ⟨h1, h2⟩ := ih hh hh_mem
          constructor
          · intro hcmem
            rcases List.mem_cons.mp hcmem with hc | hc
            · exact hx hc.symm
            · exact h1 hc
          · intro y hy
            rcases List.mem_cons.mp hy with rfl | hy
            · exact List.mem_cons_self _ _
            · exact List.mem_cons_of_mem x (h2 y hy)
        · have hseg' : seg ∈ splitAll c xs := by
            rw [hsp]
            exact List.mem_cons_of_mem _ hseg
          obtain ⟨h1, h2⟩ := ih seg hseg'
          exact ⟨h1, fun y hy => List.mem_cons_of_mem x (h2 y hy)⟩

theorem parseUrl_eq_parseCore (s : List Char) :
    parseUrl s =
      match parseCore (splitFirst '?' (splitFirst '#' s).1).1 with
      | none => none
      | some (sch, host, path) => some {
          scheme := sch.map lowerChar
          host := host.map lowerChar
          path := path
          query := ((splitFirst '?' (splitFirst '#' s).1).2).map parseQuery
          fragment := (splitFirst '#' s).2 } := by
  rw [parseUrl, parseCore]
  rcases splitFirst ':' (splitFirst '?' (splitFirst '#' s).1).1 with ⟨sch, _ | rest⟩
  · rfl
  · rcases rest with _ | ⟨c1, rest⟩
    · rfl
    · by_cases hc1 : c1 = '/'
      · subst hc1
        rcases rest with _ | ⟨c2, rest⟩
        · rfl
        · by_cases hc2 : c2 = '/'
          · subst hc2
            by_cases hsch : sch = []
            · simp [hsch]
            · simp only [if_neg hsch]
              rcases splitFirst '/' rest with ⟨host, _ | p⟩
              · by_cases hh : host = []
                · simp [hh]
                · simp [hh]
              · by_cases hh : host = []
                · simp [hh]
                · simp [hh]
          · simp [hc2]
      · simp [hc1]

theorem parseCore_inv {bq sch host path : List Char}
    (h : parseCore bq = some (sch, host, path)) :
    bq = sch ++ ':' :: '/' :: '/' :: (host ++ path) ∧ sch ≠ [] ∧ host ≠ [] ∧
      ':' ∉ sch ∧ '/' ∉ host ∧ (path = [] ∨ ∃ p, path = '/' :: p) := by
  rw [parseCore] at h
  split at h
  · rename_i a rest heq
    by_cases hsch : a = []
    · rw [if_pos hsch] at h
      cases h
    · rw [if_neg hsch] at h
      rcases hsp2 : splitFirst '/' rest with ⟨host0, pr⟩
      rw [hsp2] at h
      dsimp only at h
      by_cases hh : host0 = []
      · rw [if_pos hh] at h
        cases h
      · rw [if_neg hh] at h
        injection h with h
        injection h with h1 h
        injection h with h2 h3
        subst h1
        subst h2
        obtain ⟨hbq, hns⟩ := splitFirst_eq_some ':' heq
        rcases pr with _ | p
        · obtain ⟨hrest, hnh⟩ := splitFirst_eq_none '/' hsp2
          dsimp only at h3
          refine ⟨?_, hsch, hh, hns, hnh, Or.inl h3.symm⟩
          rw [hbq, hrest, ← h3]
          simp
        · obtain ⟨hrest, hnh⟩ := splitFirst_eq_some '/' hsp2
          dsimp only at h3
          refine ⟨?_, hsch, hh, hns, hnh, Or.inr ⟨p, h3.symm⟩⟩
          rw [hbq, hrest, ← h3]
  · cases h

theorem parseCore_append (sch host path : List Char) (hs : sch ≠ []) (hh : host ≠ [])
    (hsc : ':' ∉ sch) (hhc : '/' ∉ host) (hp : path = [] ∨ ∃ p, path = '/' :: p) :
    parseCore (sch ++ ':' :: '/' :: '/' :: (host ++ (if path = [] then ['/'] else path))) =
      some (sch, host, if path = [] then ['/'] else path) := by
  have hsplit : splitFirst '/' (host ++ (if path = [] then ['/'] else path)) =
      (host, some (if path = [] then [] else path.tail)) := by
    rcases hp with hp | ⟨p, hp⟩
    · subst hp
      rw [if_pos rfl, if_pos rfl, show host ++ ['/'] = host ++ '/' :: [] from rfl,
        splitFirst_append '/' host [] hhc]
    · subst hp
      rw [if_neg (by simp), if_neg (by simp), splitFirst_append '/' host p hhc]
      rfl
  rw [parseCore, splitFirst_append ':' sch _ hsc]
  split
  · rename_i sch2 rest2 heq
    injection heq with e1 e2
    injection e2 with e2
    injection e2 with e3 e2
    injection e2 with e4 e2
    subst e1
    subst e2
    rw [if_neg hs, hsplit]
    dsimp only
    rw [if_neg hh]
    rcases hp with hp | ⟨p, hp⟩
    · subst hp
      rfl
    · subst hp
      rfl
  · rename_i hno
    exact absurd rfl (hno sch (host ++ (if path = [] then ['/'] else path)))

theorem mem_joinAmp {x : Char} : ∀ {L : List (List Char)},
    x ∈ joinAmp L → x = '&' ∨ ∃ l ∈ L, x ∈ l
  | [], h => absurd h (by simp [joinAmp])
  | [l], h => Or.inr ⟨l, by simp, by simpa [joinAmp] using h⟩
  | l1 :: l2 :: t, h => by
    rw [joinAmp] at h
    rcases List.mem_append.mp h with h | h
    · exact Or.inr ⟨l1, by simp, h⟩
    · rcases List.mem_cons.mp h with h | h
      · exact Or.inl h
      · rcases mem_joinAmp h with h | ⟨l, hl, hx⟩
        · exact Or.inl h
        · exact Or.inr ⟨l, List.mem_cons_of_mem _ hl, hx⟩

theorem mem_serializeQuery {x : Char} {ps : List (List Char × List Char)}
    (h : x ∈ serializeQuery ps) :
    x = '&' ∨ x = '=' ∨ ∃ kv ∈ ps, x ∈ kv.1 ∨ x ∈ kv.2 := by
  rcases mem_joinAmp h with h | ⟨l, hl, hx⟩
  · exact Or.inl h
  · rcases List.mem_map.mp hl with ⟨kv, hkv, rfl⟩
    rcases List.mem_append.mp hx with hx | hx
    · exact Or.inr (Or.inr ⟨kv, hkv, Or.inl hx⟩)
    · rcases List.mem_cons.mp hx with rfl | hx
      · exact Or.inr (Or.inl rfl)
      · exact Or.inr (Or.inr ⟨kv, hkv, Or.inr hx⟩)

theorem parseQuery_serializeQuery (ps : List (List Char × List Char))
    (h : ∀ kv ∈ ps, '&' ∉ kv.1 ∧ '=' ∉ kv.1 ∧ '&' ∉ kv.2) :
    parseQuery (serializeQuery ps) = ps := by
  induction ps with
  | nil => rfl
  | cons kv rest ih =>
    obtain ⟨h1, h2, h3⟩ := h kv (List.mem_cons_self _ _)
    have hseg : '&' ∉ kv.1 ++ '=' :: kv.2 := by
      intro hm
      rcases List.mem_append.mp hm with hm | hm
      · exact h1 hm
      · rcases List.mem_cons.mp hm with hm | hm
        · exact absurd hm (by decide)
        · exact h3 hm
    have hne : kv.1 ++ '=' :: kv.2 ≠ [] := by simp
    have hpair : parsePair (kv.1 ++ '=' :: kv.2) = kv := by
      rw [parsePair, splitFirst_append '=' kv.1 kv.2 h2]
      rfl
    cases rest with
    | nil =>
      rw [serializeQuery, List.map_singleton, joinAmp, parseQuery,
        splitAll_of_not_mem _ _ hseg]
      simp only [List.filterMap, if_neg hne, hpair]
    | cons kv2 rest2 =>
      have hrest : parseQuery (serializeQuery (kv2 :: rest2)) = kv2 :: rest2 :=
        ih (fun kv hkv => h kv (List.mem_cons_of_mem _ hkv))
      rw [serializeQuery, List.map_cons, List.map_cons, joinAmp, parseQuery,
        splitAll_append _ _ _ hseg]
      rw [List.filterMap_cons, if_neg hne, hpair]
      rw [parseQuery, serializeQuery, List.map_cons] at hrest
      rw [hrest]

theorem mem_parseQuery {kv : List Char × List Char} {s : List Char}
    (h : kv ∈ parseQuery s) :
    ('&' ∉ kv.1 ∧ '=' ∉ kv.1 ∧ ∀ x ∈ kv.1, x ∈ s) ∧
      ('&' ∉ kv.2 ∧ ∀ x ∈ kv.2, x ∈ s) := by
  rw [parseQuery] at h
  rcases List.mem_filterMap.mp h with ⟨seg, hseg, hkv⟩
  by_cases hne : seg = []
  · rw [if_pos hne] at hkv
    cases hkv
  · rw [if_neg hne] at hkv
    injection hkv with hkv
    obtain ⟨hamp, hsub⟩ := mem_splitAll '&' s seg hseg
    subst hkv
    rcases hsf : splitFirst '=' seg with ⟨k, vOpt⟩
    rcases vOpt with _ | v
    · obtain ⟨hk, hnk⟩ := splitFirst_eq_none '=' hsf
      rw [parsePair, hsf]
      dsimp only
      subst hk
      refine ⟨⟨hamp, hnk, hsub⟩, ?_⟩
      simp [Option.getD]
    · obtain ⟨hk, hnk⟩ := splitFirst_eq_some '=' hsf
      rw [parsePair, hsf]
      dsimp only
      constructor
      · refine ⟨?_, hnk, ?_⟩
        · intro hm
          exact hamp (hk ▸ List.mem_append_left _ hm)
        · intro x hm
          exact hsub x (hk ▸ List.mem_append_left _ hm)
      · constructor
        · intro hm
          exact hamp (hk ▸ List.mem_append_right _ (List.mem_cons_of_mem _ hm))
        · intro x hm
          exact hsub x (hk ▸ List.mem_append_right _ (List.mem_cons_of_mem _ hm))

theorem good_parseUrl {s : List Char} {u : UrlC} (h : parseUrl s = some u) :
    GoodUrl u := by
  rw [parseUrl_eq_parseCore] at h
  rcases hpc : parseCore (splitFirst '?' (splitFirst '#' s).1).1 with _ | ⟨sch, host, path⟩
  · rw [hpc] at h
    cases h
  · rw [hpc] at h
    injection h with h
    obtain ⟨hbq, hsne, hhne, hsc, hhc, hpshape⟩ := parseCore_inv hpc
    -- characters of the pre-query part carry no question mark or hash
    have hbf : ∀ x ∈ (splitFirst '?' (splitFirst '#' s).1).1, x ≠ '?' ∧ x ≠ '#' := by
      intro x hx
      constructor
      · rcases hq2 : (splitFirst '?' (splitFirst '#' s).1).2 with _ | qs
        · obtain ⟨he, hn⟩ := splitFirst_eq_none '?'
            (show splitFirst '?' (splitFirst '#' s).1 = (_, none) from
              Prod.ext rfl hq2)
          intro hxq
          exact hn (hxq ▸ hx)
        · obtain ⟨he, hn⟩ := splitFirst_eq_some '?'
            (show splitFirst '?' (splitFirst '#' s).1 = (_, some qs) from
              Prod.ext rfl hq2)
          intro hxq
          exact hn (hxq ▸ hx)
      · have hmem_bf : x ∈ (splitFirst '#' s).1 := by
          rcases hq2 : (splitFirst '?' (splitFirst '#' s).1).2 with _ | qs
          · obtain ⟨he, hn⟩ := splitFirst_eq_none '?'
              (show splitFirst '?' (splitFirst '#' s).1 = (_, none) from
                Prod.ext rfl hq2)
            exact he ▸ hx
          · obtain ⟨he, hn⟩ := splitFirst_eq_some '?'
              (show splitFirst '?' (splitFirst '#' s).1 = (_, some qs) from
                Prod.ext rfl hq2)
            rw [he]
            exact List.mem_append_left _ hx
        rcases hh2 : (splitFirst '#' s).2 with _ | fs
        · obtain ⟨he, hn⟩ := splitFirst_eq_none '#'
            (show splitFirst '#' s = (_, none) from Prod.ext rfl hh2)
          intro hxh
          exact hn (hxh ▸ hmem_bf)
        · obtain ⟨he, hn⟩ := splitFirst_eq_some '#'
            (show splitFirst '#' s = (_, some fs) from Prod.ext rfl hh2)
          intro hxh
          exact hn (hxh ▸ hmem_bf)
    have hsch_bq : ∀ x ∈ sch, x ∈ (splitFirst '?' (splitFirst '#' s).1).1 := by
      intro x hx
      rw [hbq]
      exact List.mem_append_left _ hx
    have hhost_bq : ∀ x ∈ host, x ∈ (splitFirst '?' (splitFirst '#' s).1).1 := by
      intro x hx
      rw [hbq]
      refine List.mem_append_right _ ?_
      exact List.mem_cons_of_mem _ (List.mem_cons_of_mem _ (List.mem_cons_of_mem _
        (List.mem_append_left _ hx)))
    have hpath_bq : ∀ x ∈ path, x ∈ (splitFirst '?' (splitFirst '#' s).1).1 := by
      intro x hx
      rw [hbq]
      refine List.mem_append_right _ ?_
      exact List.mem_cons_of_mem _ (List.mem_cons_of_mem _ (List.mem_cons_of_mem _
        (List.mem_append_right _ hx)))
    subst h
    refine ⟨?_, ?_, ?_, ?_, ?_, ?_, ?_, ?_, ?_⟩
    · intro hcon
      rcases sch with _ | ⟨c, cs⟩
      · exact hsne rfl
      · exact absurd hcon (by simp)
    · intro hcon
      rcases host with _ | ⟨c, cs⟩
      · exact hhne rfl
      · exact absurd hcon (by simp)
    · intro c hc
      rcases List.mem_map.mp hc with ⟨c0, hc0, rfl⟩
      have h2 := hbf c0 (hsch_bq c0 hc0)
      refine ⟨?_, ?_, ?_⟩
      · intro hcon
        rw [lowerChar_eq_iff c0 ':' (by decide)] at hcon
        exact hsc (hcon ▸ hc0)
      · intro hcon
        rw [lowerChar_eq_iff c0 '?' (by decide)] at hcon
        exact h2.1 hcon
      · intro hcon
        rw [lowerChar_eq_iff c0 '#' (by decide)] at hcon
        exact h2.2 hcon
    · intro c hc
      rcases List.mem_map.mp hc with ⟨c0, hc0, rfl⟩
      have h2 := hbf c0 (hhost_bq c0 hc0)
      refine ⟨?_, ?_, ?_⟩
      · intro hcon
        rw [lowerChar_eq_iff c0 '/' (by decide)] at hcon
        exact hhc (hcon ▸ hc0)
      · intro hcon
        rw [lowerChar_eq_iff c0 '?' (by decide)] at hcon
        exact h2.1 hcon
      · intro hcon
        rw [lowerChar_eq_iff c0 '#' (by decide)] at hcon
        exact h2.2 hcon
    · exact hpshape
    · intro c hc
      exact hbf c (hpath_bq c hc)
    · intro ps hps kv hkv
      rcases hq2 : (splitFirst '?' (splitFirst '#' s).1).2 with _ | qs
      · rw [hq2] at hps
        cases hps
      · rw [hq2] at hps
        injection hps with hps
        subst hps
        obtain ⟨⟨hk1, hk2, hk3⟩, hv1, hv2⟩ := mem_parseQuery hkv
        obtain ⟨he, hn⟩ := splitFirst_eq_some '?'
          (show splitFirst '?' (splitFirst '#' s).1 = (_, some qs) from
            Prod.ext rfl hq2)
        have hqs_bf : ∀ x ∈ qs, x ∈ (splitFirst '#' s).1 := by
          intro x hx
          rw [he]
          exact List.mem_append_right _ (List.mem_cons_of_mem _ hx)
        have hqs_nh : ∀ x ∈ qs, x ≠ '#' := by
          intro x hx
          rcases hh2 : (splitFirst '#' s).2 with _ | fs
          · obtain ⟨he2, hn2⟩ := splitFirst_eq_none '#'
              (show splitFirst '#' s = (_, none) from Prod.ext rfl hh2)
            intro hxh
            exact hn2 (hxh ▸ hqs_bf x hx)
          · obtain ⟨he2, hn2⟩ := splitFirst_eq_some '#'
              (show splitFirst '#' s = (_, some fs) from Prod.ext rfl hh2)
            intro hxh
            exact hn2 (hxh ▸ hqs_bf x hx)
        refine ⟨⟨hk1, hk2, ?_⟩, hv1, ?_⟩
        · intro hm
          exact hqs_nh '#' (hk3 '#' hm) rfl
        · intro hm
          exact hqs_nh '#' (hv2 '#' hm) rfl
    · exact map_lowerChar_idem _
    · exact map_lowerChar_idem _

theorem removeTracking_scheme (u : UrlC) : (removeTracking u).scheme = u.scheme := by
  rw [removeTracking]
  rcases u.query with _ | ps
  · rfl
  · rfl

theorem removeTracking_host (u : UrlC) : (removeTracking u).host = u.host := by
  rw [removeTracking]
  rcases u.query with _ | ps
  · rfl
  · rfl

theorem removeTracking_path (u : UrlC) : (removeTracking u).path = u.path := by
  rw [removeTracking]
  rcases u.query with _ | ps
  · rfl
  · rfl

theorem removeTracking_fragment (u : UrlC) : (removeTracking u).fragment = none := by
  rw [removeTracking]
  rcases u.query with _ | ps
  · rfl
  · rfl

theorem removeTracking_query (u : UrlC) :
    (removeTracking u).query = none ∨
      ∃ ps kept, u.query = some ps ∧
        kept = ps.filter (fun kv => !(decide (kv.1 ∈ params_to_remove))) ∧
        kept ≠ [] ∧ (removeTracking u).query = some kept := by
  rw [removeTracking]
  rcases hq : u.query with _ | ps
  · exact Or.inl rfl
  · dsimp only
    by_cases hk : ps.filter (fun kv => !(decide (kv.1 ∈ params_to_remove))) = []
    · rw [if_pos hk]
      exact Or.inl rfl
    · rw [if_neg hk]
      exact Or.inr ⟨ps, _, rfl, rfl, hk, rfl⟩

theorem good_removeTracking (u : UrlC) (g : GoodUrl u) : GoodUrl (removeTracking u) := by
  refine ⟨?_, ?_, ?_, ?_, ?_, ?_, ?_, ?_, ?_⟩
  · rw [removeTracking_scheme]
    exact g.scheme_ne
  · rw [removeTracking_host]
    exact g.host_ne
  · rw [removeTracking_scheme]
    exact g.scheme_no
  · rw [removeTracking_host]
    exact g.host_no
  · rw [removeTracking_path]
    exact g.path_shape
  · rw [removeTracking_path]
    exact g.path_no
  · intro ps hps kv hkv
    rcases removeTracking_query u with hq | ⟨ps0, kept, hq0, hkeep, hkne, hq⟩
    · rw [hq] at hps
      cases hps
    · rw [hq] at hps
      injection hps with hps
      subst hps
      subst hkeep
      exact g.query_no ps0 hq0 kv (List.mem_of_mem_filter hkv)
  · rw [removeTracking_scheme]
    exact g.lower_scheme
  · rw [removeTracking_host]
    exact g.lower_host

theorem removeTracking_fix (v : UrlC) (hf : v.fragment = none)
    (hq : v.query = none ∨ ∃ ps, v.query = some ps ∧
      ps.filter (fun kv => !(decide (kv.1 ∈ params_to_remove))) = ps ∧ ps ≠ []) :
    removeTracking v = v := by
  rcases v with ⟨sch, host, path, query, frag⟩
  dsimp only at hf
  subst hf
  rcases hq with hq | ⟨ps, hq, hfil, hne⟩
  · dsimp only at hq
    subst hq
    rfl
  · dsimp only at hq
    subst hq
    rw [removeTracking]
    dsimp only
    rw [hfil, if_neg hne]

theorem mem_serializeUrl {x : Char} {u : UrlC} (h : x ∈ serializeUrl u) :
    x ∈ u.scheme ∨ x = ':' ∨ x = '/' ∨ x ∈ u.host ∨ x ∈ u.path ∨
      (∃ ps, u.query = some ps ∧
        (x = '?' ∨ x = '&' ∨ x = '=' ∨ ∃ kv ∈ ps, x ∈ kv.1 ∨ x ∈ kv.2)) ∨
      (∃ f, u.fragment = some f ∧ (x = '#' ∨ x ∈ f)) := by
  rw [serializeUrl] at h
  simp only [List.mem_append, List.mem_cons, or_assoc] at h
  rcases h with h | h | h | h | h
  · exact Or.inl h
  · exact Or.inr (Or.inl h)
  · exact Or.inr (Or.inr (Or.inl h))
  · exact Or.inr (Or.inr (Or.inl h))
  rcases h with h | h | h
  · exact Or.inr (Or.inr (Or.inr (Or.inl h)))
  · by_cases hp : u.path = []
    · rw [if_pos hp] at h
      rcases List.mem_singleton.mp h with rfl
      exact Or.inr (Or.inr (Or.inl rfl))
    · rw [if_neg hp] at h
      exact Or.inr (Or.inr (Or.inr (Or.inr (Or.inl h))))
  rcases h with h | h
  · rcases hq : u.query with _ | ps
    · rw [hq] at h
      simp at h
    · rw [hq] at h
      dsimp only at h
      rcases List.mem_cons.mp h with rfl | h
      · exact Or.inr (Or.inr (Or.inr (Or.inr (Or.inr (Or.inl ⟨ps, rfl, Or.inl rfl⟩)))))
      · rcases mem_serializeQuery h with rfl | rfl | hkv
        · exact Or.inr (Or.inr (Or.inr (Or.inr (Or.inr (Or.inl
            ⟨ps, rfl, Or.inr (Or.inl rfl)⟩)))))
        · exact Or.inr (Or.inr (Or.inr (Or.inr (Or.inr (Or.inl
            ⟨ps, rfl, Or.inr (Or.inr (Or.inl rfl))⟩)))))
        · exact Or.inr (Or.inr (Or.inr (Or.inr (Or.inr (Or.inl
            ⟨ps, rfl, Or.inr (Or.inr (Or.inr hkv))⟩)))))
  · rcases hf : u.fragment with _ | f
    · rw [hf] at h
      simp at h
    · rw [hf] at h
      dsimp only at h
      rcases List.mem_cons.mp h with rfl | h
      · exact Or.inr (Or.inr (Or.inr (Or.inr (Or.inr (Or.inr ⟨f, rfl, Or.inl rfl⟩)))))
      · exact Or.inr (Or.inr (Or.inr (Or.inr (Or.inr (Or.inr ⟨f, rfl, Or.inr h⟩)))))

theorem qmark_not_mem_pre (u : UrlC) (g : GoodUrl u) :
    '?' ∉ u.scheme ++ ':' :: '/' :: '/' ::
      (u.host ++ (if u.path = [] then ['/'] else u.path)) := by
  intro hmem
  simp only [List.mem_append, List.mem_cons, or_assoc] at hmem
  rcases hmem with h | h | h | h | h | h
  · exact (g.scheme_no _ h).2.1 rfl
  · exact absurd h (by decide)
  · exact absurd h (by decide)
  · exact absurd h (by decide)
  · exact (g.host_no _ h).2.1 rfl
  · by_cases hp : u.path = []
    · rw [if_pos hp] at h
      simp at h
    · rw [if_neg hp] at h
      exact (g.path_no _ h).1 rfl

theorem hash_not_mem_serializeUrl (u : UrlC) (g : GoodUrl u) (hf : u.fragment = none) :
    '#' ∉ serializeUrl u := by
  intro hmem
  rcases mem_serializeUrl hmem with h | h | h | h | h | ⟨ps, hq, h⟩ | ⟨f, hfr, h⟩
  · exact (g.scheme_no _ h).2.2 rfl
  · exact absurd h (by decide)
  · exact absurd h (by decide)
  · exact (g.host_no _ h).2.2 rfl
  · exact (g.path_no _ h).2 rfl
  · rcases h with h | h | h | ⟨kv, hkv, h | h⟩
    · exact absurd h (by decide)
    · exact absurd h (by decide)
    · exact absurd h (by decide)
    · exact (g.query_no ps hq kv hkv).1.2.2 h
    · exact (g.query_no ps hq kv hkv).2.2 h
  · rw [hf] at hfr
    cases hfr

theorem serializeUrl_shape_none (u : UrlC) (hq : u.query = none) (hf : u.fragment = none) :
    serializeUrl u = u.scheme ++ ':' :: '/' :: '/' ::
      (u.host ++ (if u.path = [] then ['/'] else u.path)) := by
  rw [serializeUrl, hq, hf]
  simp [List.append_assoc]

theorem serializeUrl_shape_some (u : UrlC) {ps : List (List Char × List Char)}
    (hq : u.query = some ps) (hf : u.fragment = none) :
    serializeUrl u = (u.scheme ++ ':' :: '/' :: '/' ::
      (u.host ++ (if u.path = [] then ['/'] else u.path))) ++ '?' :: serializeQuery ps := by
  rw [serializeUrl, hq, hf]
  simp [List.append_assoc]

theorem parseUrl_serializeUrl (u : UrlC) (g : GoodUrl u) (hf : u.fragment = none) :
    parseUrl (serializeUrl u) =
      some { u with path := if u.path = [] then ['/'] else u.path } := by
  have hsch_ne : ':' ∉ u.scheme := fun hmem => (g.scheme_no _ hmem).1 rfl
  have hhost_ne : '/' ∉ u.host := fun hmem => (g.host_no _ hmem).1 rfl
  have h1 : splitFirst '#' (serializeUrl u) = (serializeUrl u, none) :=
    splitFirst_of_not_mem _ _ (hash_not_mem_serializeUrl u g hf)
  rw [parseUrl_eq_parseCore, h1]
  dsimp only
  rcases hq : u.query with _ | ps
  · have hnq : '?' ∉ serializeUrl u := by
      rw [serializeUrl_shape_none u hq hf]
      exact qmark_not_mem_pre u g
    have h2 : splitFirst '?' (serializeUrl u) = (serializeUrl u, none) :=
      splitFirst_of_not_mem _ _ hnq
    rw [h2]
    dsimp only
    rw [serializeUrl_shape_none u hq hf,
      parseCore_append u.scheme u.host u.path g.scheme_ne g.host_ne hsch_ne hhost_ne
        g.path_shape]
    dsimp only [Option.map]
    rw [g.lower_scheme, g.lower_host]
    simp [hf]
  · have h2 : splitFirst '?' (serializeUrl u) =
        (u.scheme ++ ':' :: '/' :: '/' ::
          (u.host ++ (if u.path = [] then ['/'] else u.path)), some (serializeQuery ps)) := by
      rw [serializeUrl_shape_some u hq hf]
      exact splitFirst_append '?' _ _ (qmark_not_mem_pre u g)
    rw [h2]
    dsimp only
    rw [parseCore_append u.scheme u.host u.path g.scheme_ne g.host_ne hsch_ne hhost_ne
      g.path_shape]
    dsimp only [Option.map]
    rw [g.lower_scheme, g.lower_host,
      parseQuery_serializeQuery ps
        (fun kv hkv => ⟨(g.query_no ps hq kv hkv).1.1, (g.query_no ps hq kv hkv).1.2.1,
          (g.query_no ps hq kv hkv).2.1⟩)]
    simp [hf]

theorem serializeUrl_pathFix (v : UrlC) :
    serializeUrl { v with path := if v.path = [] then ['/'] else v.path } =
      serializeUrl v := by
  rcases v with ⟨sch, host, path, query, frag⟩
  dsimp only
  by_cases hp : path = []
  · subst hp
    rfl
  · rw [if_neg hp]

theorem filter_params_idem (ps : List (List Char × List Char)) :
    (ps.filter (fun kv => !(decide (kv.1 ∈ params_to_remove)))).filter
        (fun kv => !(decide (kv.1 ∈ params_to_remove))) =
      ps.filter (fun kv => !(decide (kv.1 ∈ params_to_remove))) := by
  rw [List.filter_filter]
  simp

/-- C5: URL canonicalisation is idempotent: for every URL string that parses
successfully, normalize_url (normalize_url s) = normalize_url s.  The url
crate is modelled from spec section 4.E (see parseUrl), since it is an
external dependency of src/src/engines/aggregator.rs. -/
theorem c5_normalize_url_idempotent (s : String)
    (h : (parseUrl s.toList).isSome = true) :
    normalize_url (normalize_url s) = normalize_url s := by
  rcases hp : parseUrl s.toList with _ | u
  · rw [hp] at h
    cases h
  · have g := good_parseUrl hp
    have gt := good_removeTracking u g
    have hft : (removeTracking u).fragment = none := removeTracking_fragment u
    have hn1 : normalize_url s = (serializeUrl (removeTracking u)).asString := by
      rw [normalize_url, hp]
    rw [hn1, normalize_url]
    have htl : ((serializeUrl (removeTracking u)).asString).toList =
        serializeUrl (removeTracking u) := rfl
    rw [htl, parseUrl_serializeUrl (removeTracking u) gt hft]
    dsimp only
    have hfix : removeTracking { removeTracking u with
        path := if (removeTracking u).path = [] then ['/'] else (removeTracking u).path } =
        { removeTracking u with
          path := if (removeTracking u).path = [] then ['/'] else (removeTracking u).path } := by
      refine removeTracking_fix _ (removeTracking_fragment u) ?_
      rcases removeTracking_query u with hq | ⟨ps0, kept, hq0, hkeep, hkne, hqv⟩
      · exact Or.inl hq
      · refine Or.inr ⟨kept, hqv, ?_, hkne⟩
        rw [hkeep]
        exact filter_params_idem ps0
    rw [hfix, serializeUrl_pathFix]

/-- Witness for C5 at the URL exercised by the Rust unit test
test_normalize_url. -/
theorem c5_witness :
    (parseUrl ("https://Example.com/Path?utm_source=google&q=test#fragment").toList).isSome
        = true ∧
      normalize_url (normalize_url "https://Example.com/Path?utm_source=google&q=test#fragment") =
        normalize_url "https://Example.com/Path?utm_source=google&q=test#fragment" :=
  ⟨rfl, c5_normalize_url_idempotent _ rfl⟩

theorem sanitizeResult_url (clean : String → String) (r : SearchResult) :
    (sanitizeResult clean r).url = r.url := by
  rw [sanitizeResult]
  rcases r.content with _ | _ | _ | _
  · rfl
  · rfl
  · rfl
  · rfl

theorem lookupA_eq_none {α : Type} (k : String) (m : List (String × α)) :
    lookupA k m = none ↔ k ∉ m.map Prod.fst := by
  induction m with
  | nil => simp [lookupA]
  | cons kv rest ih =>
    rw [lookupA]
    by_cases hk : kv.1 = k
    · simp [hk]
    · simp only [if_neg hk, List.map_cons, List.mem_cons, ih]
      constructor
      · intro h hmem
        rcases hmem with hmem | hmem
        · exact hk hmem.symm
        · exact h hmem
      · intro h hmem
        exact h (Or.inr hmem)

theorem updateA_keys {α : Type} (k : String) (f : α → α) (m : List (String × α)) :
    (updateA k f m).map Prod.fst = m.map Prod.fst := by
  induction m with
  | nil => rfl
  | cons kv rest ih =>
    rw [updateA]
    by_cases hk : kv.1 = k
    · rw [if_pos hk]
      simp [hk]
    · rw [if_neg hk]
      simp [ih]

theorem mem_updateA {α : Type} (k : String) (f : α → α) (m : List (String × α)) :
    ∀ kv ∈ updateA k f m, kv ∈ m ∨ ∃ kv0 ∈ m, kv = (kv0.1, f kv0.2) := by
  induction m with
  | nil =>
    intro kv hkv
    cases hkv
  | cons kv0 rest ih =>
    intro kv hkv
    rw [updateA] at hkv
    by_cases hk : kv0.1 = k
    · rw [if_pos hk] at hkv
      rcases List.mem_cons.mp hkv with rfl | hkv
      · exact Or.inr ⟨kv0, List.mem_cons_self _ _, rfl⟩
      · exact Or.inl (List.mem_cons_of_mem _ hkv)
    · rw [if_neg hk] at hkv
      rcases List.mem_cons.mp hkv with rfl | hkv
      · exact Or.inl (List.mem_cons_self _ _)
      · rcases ih kv hkv with h | ⟨kv1, hkv1, rfl⟩
        · exact Or.inl (List.mem_cons_of_mem _ h)
        · exact Or.inr ⟨kv1, List.mem_cons_of_mem _ hkv1, rfl⟩

theorem aggStep_keys (clean : String → String) (blocklist : List String)
    (m : List (String × SearchResult)) (res : SearchResult) :
    (aggStep clean blocklist m res).map Prod.fst =
      if isBlocked blocklist res.url then m.map Prod.fst
      else if normalize_url res.url ∈ m.map Prod.fst then m.map Prod.fst
      else m.map Prod.fst ++ [normalize_url res.url] := by
  rw [aggStep]
  by_cases hb : isBlocked blocklist res.url
  · rw [if_pos hb, if_pos hb]
  · rw [if_neg hb, if_neg hb]
    have hu : normalize_url (sanitizeResult clean res).url = normalize_url res.url := by
      rw [sanitizeResult_url]
    dsimp only
    rw [hu]
    rcases hl : lookupA (normalize_url res.url) m with _ | v
    · rw [if_neg (lookupA_eq_none _ m |>.mp hl)]
      simp
    · have hmem : normalize_url res.url ∈ m.map Prod.fst := by
        by_contra hcon
        rw [← lookupA_eq_none _ m] at hcon
        rw [hl] at hcon
        cases hcon
      rw [if_pos hmem, updateA_keys]

theorem aggMap_keys (clean : String → String) (blocklist : List String) :
    ∀ (results : List SearchResult) (m : List (String × SearchResult)),
      (m.map Prod.fst).Nodup →
      ((results.foldl (aggStep clean blocklist) m).map Prod.fst).Nodup ∧
        ((results.foldl (aggStep clean blocklist) m).map Prod.fst).toFinset =
          (m.map Prod.fst).toFinset ∪ (canonKeys results blocklist).toFinset := by
  intro results
  induction results with
  | nil =>
    intro m hm
    refine ⟨hm, ?_⟩
    simp [canonKeys]
  | cons res rest ih =>
    intro m hm
    rw [List.foldl_cons]
    have hkeys := aggStep_keys clean blocklist m res
    by_cases hb : isBlocked blocklist res.url
    · rw [if_pos hb] at hkeys
      obtain ⟨h1, h2⟩ := ih (aggStep clean blocklist m res) (by rw [hkeys]; exact hm)
      refine ⟨h1, ?_⟩
      rw [h2, hkeys]
      have hck : canonKeys (res :: rest) blocklist = canonKeys rest blocklist := by
        rw [canonKeys, canonKeys, List.filter_cons, if_neg (by simp [hb])]
      rw [hck]
    · rw [if_neg hb] at hkeys
      have hck : canonKeys (res :: rest) blocklist =
          normalize_url res.url :: canonKeys rest blocklist := by
        rw [canonKeys, canonKeys, List.filter_cons, if_pos (by simp [hb])]
        rfl
      by_cases hmem : normalize_url res.url ∈ m.map Prod.fst
      · rw [if_pos hmem] at hkeys
        obtain ⟨h1, h2⟩ := ih (aggStep clean blocklist m res) (by rw [hkeys]; exact hm)
        refine ⟨h1, ?_⟩
        rw [h2, hkeys, hck]
        ext x
        simp only [Finset.mem_union, List.mem_toFinset, List.mem_cons]
        constructor
        · intro h
          rcases h with h | h
          · exact Or.inl h
          · exact Or.inr (Or.inr h)
        · intro h
          rcases h with h | h | h
          · exact Or.inl h
          · subst h
            exact Or.inl hmem
          · exact Or.inr h
      · rw [if_neg hmem] at hkeys
        have hnd : ((aggStep clean blocklist m res).map Prod.fst).Nodup := by
          rw [hkeys]
          simp only [List.nodup_append, List.nodup_cons, List.nodup_nil]
          exact ⟨hm, by simp, by simpa using hmem⟩
        obtain ⟨h1, h2⟩ := ih (aggStep clean blocklist m res) hnd
        refine ⟨h1, ?_⟩
        rw [h2, hkeys, hck]
        ext x
        simp only [Finset.mem_union, List.mem_toFinset, List.mem_append, List.mem_cons,
          List.mem_singleton, List.not_mem_nil, or_false]
        constructor
        · intro h
          rcases h with (h | h) | h
          · exact Or.inl h
          · exact Or.inr (Or.inl h)
          · exact Or.inr (Or.inr h)
        · intro h
          rcases h with h | h | h
          · exact Or.inl (Or.inl h)
          · exact Or.inl (Or.inr h)
          · exact Or.inr h

theorem aggMap_url_eq_key (clean : String → String) (blocklist : List String) :
    ∀ (results : List SearchResult) (m : List (String × SearchResult)),
      (∀ kv ∈ m, (kv : String × SearchResult).2.url = kv.1) →
      ∀ kv ∈ results.foldl (aggStep clean blocklist) m, kv.2.url = kv.1 := by
  intro results
  induction results with
  | nil =>
    intro m hm
    exact hm
  | cons res rest ih =>
    intro m hm
    rw [List.foldl_cons]
    refine ih _ ?_
    intro kv hkv
    rw [aggStep] at hkv
    by_cases hb : isBlocked blocklist res.url
    · rw [if_pos hb] at hkv
      exact hm kv hkv
    · rw [if_neg hb] at hkv
      dsimp only at hkv
      rcases hl : lookupA (normalize_url (sanitizeResult clean res).url) m with _ | v
      · rw [hl] at hkv
        rcases List.mem_append.mp hkv with hkv | hkv
        · exact hm kv hkv
        · rcases List.mem_singleton.mp hkv with rfl
          rfl
      · rw [hl] at hkv
        rcases mem_updateA _ _ m kv hkv with h | ⟨kv0, hkv0, rfl⟩
        · exact hm kv h
        · rw [show (mergeResult kv0.2 (sanitizeResult clean res)).url = kv0.2.url from rfl]
          exact hm kv0 hkv0

theorem orderedInsertR_perm (x : SearchResult) (l : List SearchResult) :
    (orderedInsertR x l).Perm (x :: l) := by
  induction l with
  | nil => exact List.Perm.refl _
  | cons y ys ih =>
    rw [orderedInsertR]
    by_cases h : resLe x y
    · rw [if_pos h]
    · rw [if_neg h]
      exact (List.Perm.cons y ih).trans (List.Perm.swap x y ys)

theorem sortResults_perm (l : List SearchResult) : (sortResults l).Perm l := by
  induction l with
  | nil => exact List.Perm.refl _
  | cons x xs ih =>
    rw [sortResults, List.foldr_cons]
    exact (orderedInsertR_perm x _).trans (List.Perm.cons x ih)

/-- C1: aggregate returns exactly one output result per distinct canonical
URL of the non-blocked inputs: the output urls are exactly the distinct
values of normalize_url over the inputs surviving the host blocklist, with
no duplicate, and in particular the output length equals the number of such
distinct canonical URLs. -/
theorem c1_aggregate_dedup (clean : String → String) (L : List SearchResult)
    (B : List String) :
    (aggregate clean L B).length = (canonKeys L B).toFinset.card ∧
      ((aggregate clean L B).map (fun r => r.url)).Nodup ∧
      ((aggregate clean L B).map (fun r => r.url)).toFinset = (canonKeys L B).toFinset := by
  obtain ⟨hnd, hfin⟩ := aggMap_keys clean B L [] (by simp)
  have hkeysF : ((aggMap clean L B).map Prod.fst).toFinset = (canonKeys L B).toFinset := by
    rw [show aggMap clean L B = L.foldl (aggStep clean B) [] from rfl, hfin]
    simp
  have hurl : (aggregateVals clean L B).map (fun r => r.url) =
      (aggMap clean L B).map Prod.fst := by
    rw [aggregateVals, List.map_map]
    refine List.map_congr_left ?_
    intro kv hkv
    exact aggMap_url_eq_key clean B L [] (by intro kv h; cases h) kv hkv
  have hperm : ((aggregate clean L B).map (fun r => r.url)).Perm
      ((aggregateVals clean L B).map (fun r => r.url)) :=
    (sortResults_perm _).map _
  refine ⟨?_, ?_, ?_⟩
  · have h1 : (aggregate clean L B).length = (aggregateVals clean L B).length :=
      (sortResults_perm _).length_eq
    have h2 : (aggregateVals clean L B).length = ((aggMap clean L B).map Prod.fst).length := by
      rw [aggregateVals, List.length_map, List.length_map]
    have h3 : ((aggMap clean L B).map Prod.fst).length = (canonKeys L B).toFinset.card := by
      rw [← hkeysF]
      exact (List.toFinset_card_of_nodup hnd).symm
    rw [h1, h2, h3]
  · refine hperm.symm.nodup ?_
    rw [hurl]
    exact hnd
  · rw [List.toFinset_eq_of_perm _ _ hperm, hurl, hkeysF]

/-- C3: the concrete frequency-boost scenario of spec section 8.1: inputs A
(example.com with utm_source, score 1.0, engine e1), B (example.com with a
fragment, score 0.8, engine e2), C (other.com, score 0.5, engine e1) under
the empty blocklist give exactly two results: the example.com entry first
with canonical url, summed score 9/5 = 1.8 and engines [e1, e2], then
other.com with score 1/2 = 0.5.  The second conjunct shows the same output
arises when the merge map iterates its two values in the opposite order, so
the result does not depend on the unspecified HashMap order.  Title,
content string and metadata of the inputs are arbitrary. -/
theorem c3_frequency_boost (tA tB tC cA cB cC : String)
    (mA mB mC : List (String × String)) (clean : String → String) :
    ((aggregate clean
      [⟨"https://example.com?utm_source=x", tA, ResultContent.text cA, ["e1"],
          F64.val ⟨1, 1, Nat.one_pos⟩, mA⟩,
        ⟨"https://example.com/#frag", tB, ResultContent.text cB, ["e2"],
          F64.val ⟨4, 5, by decide⟩, mB⟩,
        ⟨"https://other.com", tC, ResultContent.text cC, ["e1"],
          F64.val ⟨1, 2, by decide⟩, mC⟩] []).map
        (fun r => (r.url, r.score, r.engines)) =
      [("https://example.com/", F64.val ⟨9, 5, by decide⟩, ["e1", "e2"]),
        ("https://other.com/", F64.val ⟨1, 2, by decide⟩, ["e1"])]) ∧
      sortResults
        [⟨"https://other.com/", tC, ResultContent.text (clean cC), ["e1"],
            F64.val ⟨1, 2, by decide⟩, mC⟩,
          ⟨"https://example.com/", tA, ResultContent.text (clean cA), ["e1", "e2"],
            F64.val ⟨9, 5, by decide⟩, mA⟩] =
        [⟨"https://example.com/", tA, ResultContent.text (clean cA), ["e1", "e2"],
            F64.val ⟨9, 5, by decide⟩, mA⟩,
          ⟨"https://other.com/", tC, ResultContent.text (clean cC), ["e1"],
            F64.val ⟨1, 2, by decide⟩, mC⟩] :=
  ⟨rfl, rfl⟩

theorem sanitizeResult_engines (clean : String → String) (r : SearchResult) :
    (sanitizeResult clean r).engines = r.engines := by
  rw [sanitizeResult]
  rcases r.content with _ | _ | _ | _
  · rfl
  · rfl
  · rfl
  · rfl

theorem mergeEngines_eq (incoming : List String) : ∀ existing,
    mergeEngines existing incoming = existing ++ dedupNew incoming existing := by
  induction incoming with
  | nil =>
    intro ex
    simp [mergeEngines, dedupNew]
  | cons g gs ih =>
    intro ex
    have hstep : mergeEngines ex (g :: gs) =
        mergeEngines (if g ∈ ex then ex else ex ++ [g]) gs := by
      rw [mergeEngines, mergeEngines, List.foldl_cons]
    by_cases hg : g ∈ ex
    · rw [hstep, if_pos hg, ih ex, dedupNew, if_pos hg]
    · rw [hstep, if_neg hg, ih (ex ++ [g]), dedupNew, if_neg hg, List.append_assoc]
      rfl

theorem mergeEngines_nodup (incoming : List String) : ∀ existing : List String,
    existing.Nodup → (mergeEngines existing incoming).Nodup := by
  induction incoming with
  | nil =>
    intro ex hnd
    exact hnd
  | cons g gs ih =>
    intro ex hnd
    have hstep : mergeEngines ex (g :: gs) =
        mergeEngines (if g ∈ ex then ex else ex ++ [g]) gs := by
      rw [mergeEngines, mergeEngines, List.foldl_cons]
    rw [hstep]
    by_cases hg : g ∈ ex
    · rw [if_pos hg]
      exact ih ex hnd
    · rw [if_neg hg]
      refine ih (ex ++ [g]) ?_
      simp [List.nodup_append, hnd, hg]

theorem aggMap_engines_nodup (clean : String → String) (blocklist : List String) :
    ∀ (results : List SearchResult) (m : List (String × SearchResult)),
      (∀ kv ∈ m, (kv : String × SearchResult).2.engines.Nodup) →
      (∀ r ∈ results, r.engines.Nodup) →
      ∀ kv ∈ results.foldl (aggStep clean blocklist) m, kv.2.engines.Nodup := by
  intro results
  induction results with
  | nil =>
    intro m hm _
    exact hm
  | cons res rest ih =>
    intro m hm hL
    rw [List.foldl_cons]
    refine ih _ ?_ (fun r hr => hL r (List.mem_cons_of_mem _ hr))
    intro kv hkv
    rw [aggStep] at hkv
    by_cases hb : isBlocked blocklist res.url
    · rw [if_pos hb] at hkv
      exact hm kv hkv
    · rw [if_neg hb] at hkv
      dsimp only at hkv
      rcases hl : lookupA (normalize_url (sanitizeResult clean res).url) m with _ | v
      · rw [hl] at hkv
        rcases List.mem_append.mp hkv with hkv | hkv
        · exact hm kv hkv
        · rcases List.mem_singleton.mp hkv with rfl
          rw [show ({ sanitizeResult clean res with
              url := normalize_url (sanitizeResult clean res).url } : SearchResult).engines =
            (sanitizeResult clean res).engines from rfl, sanitizeResult_engines]
          exact hL res (List.mem_cons_self _ _)
      · rw [hl] at hkv
        rcases mem_updateA _ _ m kv hkv with h | ⟨kv0, hkv0, rfl⟩
        · exact hm kv h
        · rw [show (mergeResult kv0.2 (sanitizeResult clean res)).engines =
            mergeEngines kv0.2.engines (sanitizeResult clean res).engines from rfl]
          exact mergeEngines_nodup _ _ (hm kv0 hkv0)

/-- C2 counterexample: with an input whose own engines list already carries
a duplicate, the first insertion keeps it verbatim, so the output engines
list is not duplicate-free (refuting the unconditional duplicate-freeness
conjunct of the claim). -/
theorem c2_counterexample :
    ((aggregate id
      [⟨"https://example.com", "t", ResultContent.text "c", ["e1", "e1"],
          F64.val ⟨1, 1, Nat.one_pos⟩, []⟩] []).map (fun r => r.engines) =
      [["e1", "e1"]]) ∧ ¬ (["e1", "e1"] : List String).Nodup :=
  ⟨rfl, by decide⟩

/-- C2 (amended): when a result r merges into the existing entry e of the
same canonical URL, the score becomes the sum e.score + r.score (not max or
average), title, content and metadata stay those of e, and the engines list
becomes e.engines extended with the ids of r.engines not already present,
in order of first appearance; consequently, provided every input result has
a duplicate-free engines list, every aggregate output has a duplicate-free
engines list. -/
theorem c2_merge_semantics (clean : String → String) (L : List SearchResult)
    (B : List String) (hL : ∀ r ∈ L, r.engines.Nodup) :
    (∀ e r : SearchResult,
      (mergeResult e r).score = e.score.add r.score ∧
      (mergeResult e r).title = e.title ∧
      (mergeResult e r).content = e.content ∧
      (mergeResult e r).metadata = e.metadata ∧
      (mergeResult e r).engines = e.engines ++ dedupNew r.engines e.engines) ∧
      ∀ out ∈ aggregate clean L B, out.engines.Nodup := by
  constructor
  · intro e r
    exact ⟨rfl, rfl, rfl, rfl, mergeEngines_eq r.engines e.engines⟩
  · intro out hout
    have hvals : out ∈ aggregateVals clean L B :=
      (sortResults_perm _).mem_iff.mp hout
    rcases List.mem_map.mp hvals with ⟨kv, hkv, rfl⟩
    exact aggMap_engines_nodup clean B L [] (by intro kv h; cases h) hL kv hkv

/-- Witness for C2 at a concrete one-element input with duplicate-free
engines. -/
theorem c2_witness :
    (∀ r ∈ [(⟨"https://example.com", "t", ResultContent.text "c", ["e1"],
        F64.val ⟨1, 1, Nat.one_pos⟩, []⟩ : SearchResult)], r.engines.Nodup) ∧
      ∀ out ∈ aggregate id
        [⟨"https://example.com", "t", ResultContent.text "c", ["e1"],
            F64.val ⟨1, 1, Nat.one_pos⟩, []⟩] [], out.engines.Nodup :=
  ⟨by decide, (c2_merge_semantics id _ [] (by decide)).2⟩

theorem resLe_iff_of_val {a b : SearchResult} {x y : Q}
    (ha : a.score = F64.val x) (hb : b.score = F64.val y) :
    resLe a b = true ↔ y.val ≤ x.val := by
  rw [resLe, resCmp, ha, hb]
  show ((y.cmp x) != Ordering.gt) = true ↔ y.val ≤ x.val
  rcases hcmp : y.cmp x with _ | _ | _
  · exact ⟨fun _ => le_of_lt ((Q.cmp_eq_lt_iff y x).mp hcmp), fun _ => rfl⟩
  · exact ⟨fun _ => le_of_eq ((Q.cmp_eq_eq_iff y x).mp hcmp), fun _ => rfl⟩
  · constructor
    · intro hcon
      exact absurd hcon (by decide)
    · intro hle
      exact absurd (lt_of_le_of_lt hle ((Q.cmp_eq_gt_iff y x).mp hcmp)) (lt_irrefl _)

theorem resLe_of_nan {a b : SearchResult}
    (h : a.score = F64.nan ∨ b.score = F64.nan) : resLe a b = true := by
  rw [resLe, resCmp]
  rcases h with h | h
  · rw [h]
    rcases hb : b.score with _ | y
    · rfl
    · rfl
  · rw [h]
    rcases ha : a.score with _ | x
    · rfl
    · rfl

theorem scoreGe_of_not_resLe {a b : SearchResult}
    (ha : a.score ≠ F64.nan) (hb : b.score ≠ F64.nan)
    (h : ¬ resLe a b = true) : scoreGe b a := by
  rcases hx : a.score with _ | x
  · exact absurd hx ha
  · rcases hy : b.score with _ | y
    · exact absurd hy hb
    · rw [scoreGe, hx, hy]
      rw [resLe_iff_of_val hx hy] at h
      exact le_of_lt (lt_of_not_le h)

theorem scoreGe_of_resLe {a b : SearchResult} {x y : Q}
    (hx : a.score = F64.val x) (hy : b.score = F64.val y)
    (h : resLe a b = true) : scoreGe a b := by
  rw [scoreGe, hx, hy]
  exact (resLe_iff_of_val hx hy).mp h

theorem scoreGe_trans {a b c : SearchResult} (h1 : scoreGe a b) (h2 : scoreGe b c) :
    scoreGe a c := by
  rcases hx : a.score with _ | x
  · rw [scoreGe, hx] at h1
    exact absurd h1 (by rcases b.score with _ | _ <;> simp)
  · rcases hy : b.score with _ | y
    · rw [scoreGe, hy] at h2
      exact absurd h2 (by rcases c.score with _ | _ <;> simp)
    · rcases hz : c.score with _ | z
      · rw [scoreGe, hy, hz] at h2
        cases h2
      · rw [scoreGe, hx, hy] at h1
        rw [scoreGe, hy, hz] at h2
        rw [scoreGe, hx, hz]
        exact le_trans h2 h1

theorem mem_orderedInsertR {z x : SearchResult} {l : List SearchResult}
    (h : z ∈ orderedInsertR x l) : z = x ∨ z ∈ l := by
  have := (orderedInsertR_perm x l).mem_iff.mp h
  rcases List.mem_cons.mp this with h | h
  · exact Or.inl h
  · exact Or.inr h

theorem orderedInsertR_pairwise (x : SearchResult) (l : List SearchResult)
    (hx : x.score ≠ F64.nan) (hall : ∀ y ∈ l, y.score ≠ F64.nan)
    (hl : List.Pairwise scoreGe l) :
    List.Pairwise scoreGe (orderedInsertR x l) := by
  induction l with
  | nil => simp [orderedInsertR]
  | cons y ys ih =>
    rw [orderedInsertR]
    rw [List.pairwise_cons] at hl
    by_cases hle : resLe x y
    · rw [if_pos hle]
      rw [List.pairwise_cons]
      constructor
      · intro z hz
        rcases hy : y.score with _ | yq
        · exact absurd hy (hall y (List.mem_cons_self _ _))
        · rcases hxs : x.score with _ | xq
          · exact absurd hxs hx
          · have hxy : scoreGe x y := scoreGe_of_resLe hxs hy hle
            rcases List.mem_cons.mp hz with rfl | hz
            · exact hxy
            · exact scoreGe_trans hxy (hl.1 z hz)
      · rw [List.pairwise_cons]
        exact hl
    · rw [if_neg hle]
      rw [List.pairwise_cons]
      constructor
      · intro z hz
        rcases mem_orderedInsertR hz with rfl | hz
        · exact scoreGe_of_not_resLe hx (hall y (List.mem_cons_self _ _)) hle
        · exact hl.1 z hz
      · exact ih (fun r hr => hall r (List.mem_cons_of_mem _ hr)) hl.2

theorem sortResults_pairwise (vs : List SearchResult)
    (h : ∀ r ∈ vs, r.score ≠ F64.nan) :
    List.Pairwise scoreGe (sortResults vs) := by
  induction vs with
  | nil => simp [sortResults]
  | cons x xs ih =>
    rw [sortResults, List.foldr_cons]
    refine orderedInsertR_pairwise x _ (h x (List.mem_cons_self _ _)) ?_ ?_
    · intro y hy
      exact h y (List.mem_cons_of_mem _ ((sortResults_perm xs).mem_iff.mp hy))
    · exact ih (fun r hr => h r (List.mem_cons_of_mem _ hr))

theorem scoreClass_resLe {q : Q} {x y : SearchResult}
    (hx : scoreClass q x = true) (hy : scoreClass q y = true) :
    resLe x y = true := by
  rcases hxs : x.score with _ | a
  · exact resLe_of_nan (Or.inl hxs)
  · rcases hys : y.score with _ | b
    · exact resLe_of_nan (Or.inr hys)
    · rw [scoreClass, hxs] at hx
      rw [scoreClass, hys] at hy
      have ha : a.val = q.val := (Q.cmp_eq_eq_iff a q).mp (of_decide_eq_true hx)
      have hb : b.val = q.val := (Q.cmp_eq_eq_iff b q).mp (of_decide_eq_true hy)
      rw [resLe_iff_of_val hxs hys, hb, ← ha]

theorem scoreClass_of_not_resLe {q : Q} {x y : SearchResult}
    (hx : scoreClass q x = true) (h : ¬ resLe x y = true) :
    scoreClass q y = false := by
  by_contra hcon
  rw [Bool.not_eq_false] at hcon
  exact h (scoreClass_resLe hx hcon)

theorem filter_orderedInsertR (q : Q) (x : SearchResult) (l : List SearchResult) :
    (orderedInsertR x l).filter (scoreClass q) =
      if scoreClass q x then x :: l.filter (scoreClass q)
      else l.filter (scoreClass q) := by
  induction l with
  | nil =>
    rw [orderedInsertR]
    by_cases hx : scoreClass q x
    · simp [List.filter, hx]
    · rw [Bool.not_eq_true] at hx
      simp [List.filter, hx]
  | cons y ys ih =>
    rw [orderedInsertR]
    by_cases hle : resLe x y
    · rw [if_pos hle]
      by_cases hx : scoreClass q x
      · simp [List.filter_cons, hx]
      · rw [Bool.not_eq_true] at hx
        simp [List.filter_cons, hx]
    · rw [if_neg hle, List.filter_cons]
      by_cases hx : scoreClass q x
      · have hy : scoreClass q y = false := scoreClass_of_not_resLe hx hle
        simp [hy, ih, hx]
      · rw [Bool.not_eq_true] at hx
        by_cases hy : scoreClass q y
        · simp [hy, ih, hx]
        · rw [Bool.not_eq_true] at hy
          simp [hy, ih, hx]

theorem sortResults_stable (q : Q) (vs : List SearchResult) :
    (sortResults vs).filter (scoreClass q) = vs.filter (scoreClass q) := by
  induction vs with
  | nil => rfl
  | cons x xs ih =>
    rw [sortResults, List.foldr_cons, filter_orderedInsertR]
    have hxs : List.foldr orderedInsertR [] xs = sortResults xs := rfl
    by_cases hx : scoreClass q x
    · simp [List.filter_cons, hx, hxs, ih]
    · rw [Bool.not_eq_true] at hx
      simp [List.filter_cons, hx, hxs, ih]

theorem resCmp_nan (a b : SearchResult)
    (h : a.score = F64.nan ∨ b.score = F64.nan) : resCmp a b = Ordering.eq := by
  rw [resCmp]
  rcases h with h | h
  · rw [h]
    rcases b.score with _ | y
    · rfl
    · rfl
  · rw [h]
    rcases a.score with _ | x
    · rfl
    · rfl

/-- C4 counterexample: the claim that equal-score ties come out in the
stable order of first insertion into the merge map fails, because the Rust
code sorts HashMap::into_values output, whose iteration order is
unspecified.  Inputs A (aaa.com) then B (bbb.com) with equal scores are
inserted in that order, yet iterating the two map values in the opposite
order is possible and the stable sort keeps that opposite order.  The
second half shows the NaN caveat also breaks monotonicity: with scores
1.0, NaN, 2.0 the output [1.0, NaN, 2.0] is a possible output whose first
entry scores strictly below its last. -/
theorem c4_counterexample :
    (aggregateVals id
        [⟨"https://aaa.com", "tA", ResultContent.text "cA", ["e1"],
            F64.val ⟨1, 1, Nat.one_pos⟩, []⟩,
          ⟨"https://bbb.com", "tB", ResultContent.text "cB", ["e2"],
            F64.val ⟨1, 1, Nat.one_pos⟩, []⟩] [] =
      [⟨"https://aaa.com/", "tA", ResultContent.text "cA", ["e1"],
          F64.val ⟨1, 1, Nat.one_pos⟩, []⟩,
        ⟨"https://bbb.com/", "tB", ResultContent.text "cB", ["e2"],
          F64.val ⟨1, 1, Nat.one_pos⟩, []⟩]) ∧
      possibleOutput id
        [⟨"https://aaa.com", "tA", ResultContent.text "cA", ["e1"],
            F64.val ⟨1, 1, Nat.one_pos⟩, []⟩,
          ⟨"https://bbb.com", "tB", ResultContent.text "cB", ["e2"],
            F64.val ⟨1, 1, Nat.one_pos⟩, []⟩] []
        [⟨"https://bbb.com/", "tB", ResultContent.text "cB", ["e2"],
            F64.val ⟨1, 1, Nat.one_pos⟩, []⟩,
          ⟨"https://aaa.com/", "tA", ResultContent.text "cA", ["e1"],
            F64.val ⟨1, 1, Nat.one_pos⟩, []⟩] ∧
      (["https://bbb.com/", "https://aaa.com/"] : List String) ≠
        ["https://aaa.com/", "https://bbb.com/"] ∧
      possibleOutput id
        [⟨"https://n1.com", "t1", ResultContent.text "c1", ["e1"],
            F64.val ⟨1, 1, Nat.one_pos⟩, []⟩,
          ⟨"https://n2.com", "t2", ResultContent.text "c2", ["e2"], F64.nan, []⟩,
          ⟨"https://n3.com", "t3", ResultContent.text "c3", ["e3"],
            F64.val ⟨2, 1, Nat.one_pos⟩, []⟩] []
        [⟨"https://n1.com/", "t1", ResultContent.text "c1", ["e1"],
            F64.val ⟨1, 1, Nat.one_pos⟩, []⟩,
          ⟨"https://n2.com/", "t2", ResultContent.text "c2", ["e2"], F64.nan, []⟩,
          ⟨"https://n3.com/", "t3", ResultContent.text "c3", ["e3"],
            F64.val ⟨2, 1, Nat.one_pos⟩, []⟩] ∧
      ¬ scoreGe
        ⟨"https://n1.com/", "t1", ResultContent.text "c1", ["e1"],
          F64.val ⟨1, 1, Nat.one_pos⟩, []⟩
        ⟨"https://n3.com/", "t3", ResultContent.text "c3", ["e3"],
          F64.val ⟨2, 1, Nat.one_pos⟩, []⟩ := by
  refine ⟨rfl, ?_, by decide, ?_, ?_⟩
  · exact ⟨_, List.Perm.swap _ _ [], rfl⟩
  · exact ⟨_, List.Perm.refl _, rfl⟩
  · intro h
    rw [scoreGe] at h
    norm_num [Q.val] at h

/-- C4 (amended): for every iteration order vs of the merge map values (the
order HashMap::into_values yields is unspecified, so vs ranges over the
permutations of the insertion ordered value list), the returned sequence
sortResults vs is sorted by score in non-increasing order provided no score
is NaN; the sort is stable, so the results of any one comparator-equality
score class keep the relative order they have in vs (not necessarily first
insertion order); and the sort comparator maps every comparison involving a
NaN score to Equal. -/
theorem c4_sort_order (clean : String → String) (L : List SearchResult)
    (B : List String) (vs : List SearchResult)
    (_hperm : vs.Perm (aggregateVals clean L B)) :
    ((∀ r ∈ vs, r.score ≠ F64.nan) → List.Pairwise scoreGe (sortResults vs)) ∧
      (∀ q : Q, (sortResults vs).filter (scoreClass q) = vs.filter (scoreClass q)) ∧
      (∀ a b : SearchResult, a.score = F64.nan ∨ b.score = F64.nan →
        resCmp a b = Ordering.eq) := by
  refine ⟨?_, ?_, ?_⟩
  · intro h
    exact sortResults_pairwise vs h
  · intro q
    exact sortResults_stable q vs
  · intro a b h
    exact resCmp_nan a b h

/-- Witness for C4 at a concrete two-element map in its insertion order. -/
theorem c4_witness :
    (aggregateVals id
        [⟨"https://aaa.com", "tA", ResultContent.text "cA", ["e1"],
            F64.val ⟨1, 1, Nat.one_pos⟩, []⟩] []).Perm
      (aggregateVals id
        [⟨"https://aaa.com", "tA", ResultContent.text "cA", ["e1"],
            F64.val ⟨1, 1, Nat.one_pos⟩, []⟩] []) ∧
      ((∀ r ∈ aggregateVals id
          [⟨"https://aaa.com", "tA", ResultContent.text "cA", ["e1"],
              F64.val ⟨1, 1, Nat.one_pos⟩, []⟩] [], r.score ≠ F64.nan) →
        List.Pairwise scoreGe (sortResults (aggregateVals id
          [⟨"https://aaa.com", "tA", ResultContent.text "cA", ["e1"],
              F64.val ⟨1, 1, Nat.one_pos⟩, []⟩] []))) ∧
      (∀ q : Q, (sortResults (aggregateVals id
          [⟨"https://aaa.com", "tA", ResultContent.text "cA", ["e1"],
              F64.val ⟨1, 1, Nat.one_pos⟩, []⟩] [])).filter (scoreClass q) =
        (aggregateVals id
          [⟨"https://aaa.com", "tA", ResultContent.text "cA", ["e1"],
              F64.val ⟨1, 1, Nat.one_pos⟩, []⟩] []).filter (scoreClass q)) ∧
      (∀ a b : SearchResult, a.score = F64.nan ∨ b.score = F64.nan →
        resCmp a b = Ordering.eq) :=
  ⟨List.Perm.refl _, c4_sort_order id _ [] _ (List.Perm.refl _)⟩

theorem foldl_report_failure_closed (t cooldown : Nat) :
    ∀ (times : List Nat) (k : Nat) (l0 : Option Nat), k + times.length < t →
      times.foldl CircuitBreaker.report_failure ⟨CBState.Closed, k, l0, t, cooldown⟩ =
        ⟨CBState.Closed, k + times.length, l0, t, cooldown⟩ := by
  intro times
  induction times with
  | nil =>
    intro k l0 _
    simp
  | cons τ rest ih =>
    intro k l0 hk
    rw [List.foldl_cons]
    have hstep : CircuitBreaker.report_failure ⟨CBState.Closed, k, l0, t, cooldown⟩ τ =
        ⟨CBState.Closed, k + 1, l0, t, cooldown⟩ := by
      rw [CircuitBreaker.report_failure]
      dsimp only
      rw [if_neg (by simp at hk; omega)]
    rw [hstep, ih (k + 1) l0 (by simp at hk ⊢; omega)]
    simp only [List.length_cons]
    congr 1
    omega

/-- C6: with failure threshold t at least 1, t consecutive report_failure
calls starting from a fresh breaker leave it Open with the last failure
time recorded; every check strictly inside the cooldown window returns
false and leaves the breaker unchanged; the first check at or after
cooldown elapse itself moves the state to HalfOpen and returns true; and
any check in the HalfOpen state returns false and changes nothing, so
exactly one probe is admitted per cooldown window. -/
theorem c6_breaker_gating (t cooldown : Nat) (ts : List Nat) (τ : Nat)
    (cb1 : CircuitBreaker) (ht : ts.length + 1 = t)
    (hcb : cb1 = (ts ++ [τ]).foldl CircuitBreaker.report_failure
      (CircuitBreaker.new t cooldown)) :
    cb1.state = CBState.Open ∧ cb1.failures = t ∧ cb1.last_failure = some τ ∧
      (∀ now, now - τ < cooldown → cb1.check now = (false, cb1)) ∧
      (∀ now, cooldown ≤ now - τ →
        cb1.check now = (true, { cb1 with state := CBState.HalfOpen })) ∧
      (∀ (cb : CircuitBreaker) (now : Nat), cb.state = CBState.HalfOpen →
        cb.check now = (false, cb)) := by
  have hts : ts.foldl CircuitBreaker.report_failure (CircuitBreaker.new t cooldown) =
      ⟨CBState.Closed, ts.length, none, t, cooldown⟩ := by
    rw [CircuitBreaker.new]
    rw [show (0 : Nat) = 0 + 0 from rfl]
    rw [show (⟨CBState.Closed, 0 + 0, none, t, cooldown⟩ : CircuitBreaker) =
      ⟨CBState.Closed, 0, none, t, cooldown⟩ from rfl]
    rw [foldl_report_failure_closed t cooldown ts 0 none (by omega)]
    simp
  have hcb1 : cb1 = ⟨CBState.Open, t, some τ, t, cooldown⟩ := by
    rw [hcb, List.foldl_append, hts, List.foldl_cons, List.foldl_nil,
      CircuitBreaker.report_failure]
    dsimp only
    rw [if_pos (by omega), ht]
  subst hcb1
  refine ⟨rfl, rfl, rfl, ?_, ?_, ?_⟩
  · intro now hnow
    rw [CircuitBreaker.check]
    dsimp only
    rw [if_neg (by omega)]
  · intro now hnow
    rw [CircuitBreaker.check]
    dsimp only
    rw [if_pos hnow]
  · intro cb now hcbstate
    rw [CircuitBreaker.check, hcbstate]

/-- Witness for C6: threshold 2, cooldown 5, failures at times 0 and 1;
the check at time 3 is refused, the check at time 6 admits the probe. -/
theorem c6_witness :
    (([0] : List Nat).length + 1 = 2) ∧
      (([0] ++ [1]).foldl CircuitBreaker.report_failure (CircuitBreaker.new 2 5) =
        ([0] ++ [1]).foldl CircuitBreaker.report_failure (CircuitBreaker.new 2 5)) ∧
      (([0] ++ [1]).foldl CircuitBreaker.report_failure
          (CircuitBreaker.new 2 5)).state = CBState.Open ∧
      ((([0] ++ [1]).foldl CircuitBreaker.report_failure
          (CircuitBreaker.new 2 5)).check 3).1 = false ∧
      ((([0] ++ [1]).foldl CircuitBreaker.report_failure
          (CircuitBreaker.new 2 5)).check 6).1 = true := by
  obtain ⟨h1, _h2, h3, h4, h5, _h6⟩ :=
    c6_breaker_gating 2 5 [0] 1 _ (by decide) rfl
  refine ⟨by decide, rfl, h1, ?_, ?_⟩
  · rw [h4 3 (by decide)]
  · rw [h5 6 (by decide)]

theorem runEngine_err (e : EngineEntry) (now : Nat) :
    (runEngine e Outcome.err now).1 = [] ∧
      ((e.breaker.check now).1 = true →
        (runEngine e Outcome.err now).2 = ((e.breaker.check now).2).report_failure now) := by
  rw [runEngine]
  by_cases hc : (e.breaker.check now).1
  · rw [if_pos hc]
    exact ⟨rfl, fun _ => rfl⟩
  · rw [if_neg hc]
    exact ⟨rfl, fun hcon => absurd hcon hc⟩

theorem runEngine_deadline (e : EngineEntry) (now : Nat) :
    (runEngine e Outcome.deadline now).1 = [] ∧
      ((e.breaker.check now).1 = true →
        (runEngine e Outcome.deadline now).2 = ((e.breaker.check now).2).report_failure now) := by
  rw [runEngine]
  by_cases hc : (e.breaker.check now).1
  · rw [if_pos hc]
    exact ⟨rfl, fun _ => rfl⟩
  · rw [if_neg hc]
    exact ⟨rfl, fun hcon => absurd hcon hc⟩

theorem runEngine_ok (e : EngineEntry) (rs : List SearchResult) (now : Nat)
    (hc : (e.breaker.check now).1 = true) :
    runEngine e (Outcome.ok rs) now =
      (shapeScores e.config.weight rs, ((e.breaker.check now).2).report_success) := by
  rw [runEngine, if_pos hc]

theorem runEngine_not_ok_empty (e : EngineEntry) (o : Outcome) (now : Nat)
    (ho : o.isOk = false) : (runEngine e o now).1 = [] := by
  rcases o with rs | _ | _
  · cases ho
  · exact (runEngine_err e now).1
  · exact (runEngine_deadline e now).1

/-- C7: the registry search is a total function of the adapter outcomes (it
never surfaces an error): it always equals the aggregate of the selected
engines' contributions, where a successful admitted adapter contributes its
score-shaped results and reports success, a failing or timed-out adapter
contributes the empty list and one breaker failure report, and a run in
which no adapter succeeds returns the empty sequence. -/
theorem c7_failure_isolation (clean : String → String) (query : SearchQuery)
    (entries : List (EngineEntry × Outcome)) (now : Nat) :
    (searchModel clean query entries now =
      aggregate clean
        ((entries.filter (fun eo => selectEngine query.get_categories eo.1)).map
          (fun eo => (runEngine eo.1 eo.2 now).1)).flatten []) ∧
      (∀ (e : EngineEntry) (rs : List SearchResult),
        (e.breaker.check now).1 = true →
          runEngine e (Outcome.ok rs) now =
            (shapeScores e.config.weight rs, ((e.breaker.check now).2).report_success)) ∧
      (∀ e : EngineEntry,
        (runEngine e Outcome.err now).1 = [] ∧ (runEngine e Outcome.deadline now).1 = [] ∧
        ((e.breaker.check now).1 = true →
          (runEngine e Outcome.err now).2 = ((e.breaker.check now).2).report_failure now ∧
          (runEngine e Outcome.deadline now).2 =
            ((e.breaker.check now).2).report_failure now)) ∧
      ((∀ eo ∈ entries, (eo : EngineEntry × Outcome).2.isOk = false) →
        searchModel clean query entries now = []) := by
  refine ⟨rfl, ?_, ?_, ?_⟩
  · intro e rs hc
    exact runEngine_ok e rs now hc
  · intro e
    exact ⟨(runEngine_err e now).1, (runEngine_deadline e now).1,
      fun hc => ⟨(runEngine_err e now).2 hc, (runEngine_deadline e now).2 hc⟩⟩
  · intro hfail
    have hraw : ((entries.filter (fun eo => selectEngine query.get_categories eo.1)).map
        (fun eo => (runEngine eo.1 eo.2 now).1)).flatten = [] := by
      rw [List.flatten_eq_nil_iff]
      intro l hl
      rcases List.mem_map.mp hl with ⟨eo, heo, rfl⟩
      exact runEngine_not_ok_empty eo.1 eo.2 now (hfail eo (List.mem_of_mem_filter heo))
    show aggregate clean
        ((entries.filter (fun eo => selectEngine query.get_categories eo.1)).map
          (fun eo => (runEngine eo.1 eo.2 now).1)).flatten [] = []
    rw [hraw]
    rfl

/-- Witness for C7: a single failing engine yields the empty sequence. -/
theorem c7_witness :
    (∀ eo ∈ [((⟨"dummy", ["general"], defaultEngineConfig, CircuitBreaker.new 0 0⟩ :
        EngineEntry), Outcome.err)], (eo : EngineEntry × Outcome).2.isOk = false) ∧
      searchModel id ⟨"test", "", 1, 0, "", "", ""⟩
        [(⟨"dummy", ["general"], defaultEngineConfig, CircuitBreaker.new 0 0⟩,
          Outcome.err)] 0 = [] :=
  ⟨by decide,
    (c7_failure_isolation id ⟨"test", "", 1, 0, "", "", ""⟩
      [(⟨"dummy", ["general"], defaultEngineConfig, CircuitBreaker.new 0 0⟩,
        Outcome.err)] 0).2.2.2 (by decide)⟩

/-- C8: when throttling is enabled (T positive), one pass through the gate
writes last_dispatch := max(now, previous + T) inside the reservation, which
advances the reservation by at least T beyond the previous one (so
successive dispatches to the same engine are spaced at least T apart), and
the gate sleeps exactly until the previous target when that target is still
in the future; T = 0 bypasses the gate entirely, leaving last_dispatch
untouched and never sleeping. -/
theorem c8_throttle_reservation (lastTime now T : Nat) (lastOpt : Option Nat) :
    (0 < T →
      (throttleGate T (some lastTime) now).2 = some (max now (lastTime + T)) ∧
      lastTime + T ≤ max now (lastTime + T) ∧
      (throttleGate T (some lastTime) now).1 =
        (if now < lastTime + T then some (lastTime + T - now) else none)) ∧
      throttleGate 0 lastOpt now = (none, lastOpt) := by
  constructor
  · intro hT
    rw [throttleGate, if_pos hT, throttleReserve]
    dsimp only
    by_cases hlt : lastTime + T > now
    · rw [if_pos hlt]
      refine ⟨?_, le_max_right _ _, ?_⟩
      · rw [Nat.max_def, if_pos (le_of_lt hlt)]
      · rw [if_pos hlt]
    · rw [if_neg hlt]
      refine ⟨?_, le_max_right _ _, ?_⟩
      · congr 1
        omega
      · rw [if_neg (by omega)]
  · rw [throttleGate, if_neg (by omega)]

/-- Witness for C8 at T = 500 with a reservation in the future and one in
the past. -/
theorem c8_witness :
    (0 < 500) ∧
      (throttleGate 500 (some 1000) 1200).2 = some (max 1200 (1000 + 500)) ∧
      1000 + 500 ≤ max 1200 (1000 + 500) ∧
      (throttleGate 500 (some 1000) 1200).1 =
        (if 1200 < 1000 + 500 then some (1000 + 500 - 1200) else none) ∧
      throttleGate 0 (some 1000) 1200 = (none, some 1000) := by
  obtain ⟨h1, h2, h3⟩ := (c8_throttle_reservation 1000 1200 500 (some 1000)).1 (by decide)
  exact ⟨by decide, h1, h2, h3, (c8_throttle_reservation 1000 1200 500 (some 1000)).2⟩

theorem lookupA_insertA {α : Type} (k : String) (v : α) (m : List (String × α)) :
    lookupA k (insertA k v m) = some v := by
  induction m with
  | nil => simp [insertA, lookupA]
  | cons kv rest ih =>
    rw [insertA]
    by_cases hk : kv.1 = k
    · rw [if_pos hk, lookupA, if_pos rfl]
    · rw [if_neg hk, lookupA, if_neg hk, ih]

theorem insertA_keys_of_mem {α : Type} (k : String) (v : α) (m : List (String × α))
    (h : k ∈ m.map Prod.fst) : (insertA k v m).map Prod.fst = m.map Prod.fst := by
  induction m with
  | nil => cases h
  | cons kv rest ih =>
    rw [insertA]
    by_cases hk : kv.1 = k
    · rw [if_pos hk]
      simp [hk]
    · rw [if_neg hk]
      rw [List.map_cons] at h
      rcases List.mem_cons.mp h with h | h
      · exact absurd h.symm hk
      · simp [ih h]

/-- C9 counterexample: registering the id dummy twice silently replaces the
first entry with the second (here visible through the changed categories);
register_engine returns only the updated registry, with no error value
anywhere in its type, so no duplicate registration is reported. -/
theorem c9_counterexample :
    register_engine [] (register_engine [] [] "dummy" ["general"]) "dummy" ["images"] =
      [("dummy", ⟨"dummy", ["images"], defaultEngineConfig,
        CircuitBreaker.new 0 0⟩)] ∧
      (["images"] : List String) ≠ ["general"] :=
  ⟨rfl, by decide⟩

/-- C9 (amended): register_engine resolves the adapter config (default when
absent from the settings), builds the entry with a fresh breaker, and
HashMap-inserts it: after registration the id maps to the new entry, and
when the id was already registered the key set is unchanged — the previous
entry is silently replaced and no error is reported (the function has no
error channel). -/
theorem c9_register_replaces (settings : List (String × EngineConfig))
    (engines : List (String × EngineEntry)) (id : String) (categories : List String) :
    lookupA id (register_engine settings engines id categories) =
      some ⟨id, categories, (lookupA id settings).getD defaultEngineConfig,
        CircuitBreaker.new ((lookupA id settings).getD defaultEngineConfig).failure_threshold
          ((lookupA id settings).getD defaultEngineConfig).cooldown⟩ ∧
      (id ∈ engines.map Prod.fst →
        (register_engine settings engines id categories).map Prod.fst =
          engines.map Prod.fst) := by
  constructor
  · exact lookupA_insertA id _ engines
  · intro hmem
    exact insertA_keys_of_mem id _ engines hmem

/-- Witness for C9 on a registry already holding the id dummy. -/
theorem c9_witness :
    ("dummy" ∈ (register_engine [] [] "dummy" ["general"]).map Prod.fst) ∧
      (register_engine [] (register_engine [] [] "dummy" ["general"]) "dummy"
        ["images"]).map Prod.fst =
        (register_engine [] [] "dummy" ["general"]).map Prod.fst :=
  ⟨by decide,
    (c9_register_replaces [] (register_engine [] [] "dummy" ["general"]) "dummy"
      ["images"]).2 (by decide)⟩

/-- C10: a SearchQuery whose categories string is non-empty but whose
comma-separated parts all trim to nothing yields the empty category list
(the general default applies only to the exactly empty string), hence no
engine passes category selection and the registry search returns the empty
sequence. -/
theorem c10_blank_categories (query : SearchQuery)
    (h1 : query.categories.toList ≠ [])
    (h2 : ∀ seg ∈ splitAll ',' query.categories.toList, trimChars seg = []) :
    query.get_categories = [] ∧
      ∀ (clean : String → String) (entries : List (EngineEntry × Outcome)) (now : Nat),
        searchModel clean query entries now = [] := by
  have hcats : query.get_categories = [] := by
    rw [SearchQuery.get_categories, if_neg h1]
    have hfil : ((splitAll ',' query.categories.toList).map trimChars).filter
        (fun s => !s.isEmpty) = [] := by
      rw [List.filter_eq_nil_iff]
      intro s hs
      rcases List.mem_map.mp hs with ⟨seg, hseg, rfl⟩
      rw [h2 seg hseg]
      decide
    rw [hfil]
    rfl
  refine ⟨hcats, ?_⟩
  intro clean entries now
  have hsel : entries.filter (fun eo => selectEngine query.get_categories eo.1) = [] := by
    rw [List.filter_eq_nil_iff]
    intro eo _
    rw [hcats, selectEngine]
    simp
  show aggregate clean
      ((entries.filter (fun eo => selectEngine query.get_categories eo.1)).map
        (fun eo => (runEngine eo.1 eo.2 now).1)).flatten [] = []
  rw [hsel]
  rfl

/-- Witness for C10 at the categories string of one space, one comma, one
space, with one enabled general engine registered. -/
theorem c10_witness :
    ((⟨"q", "", 1, 0, " , ", "", ""⟩ : SearchQuery).categories.toList ≠ []) ∧
      (∀ seg ∈ splitAll ','
        (⟨"q", "", 1, 0, " , ", "", ""⟩ : SearchQuery).categories.toList,
        trimChars seg = []) ∧
      (⟨"q", "", 1, 0, " , ", "", ""⟩ : SearchQuery).get_categories = [] ∧
      searchModel id ⟨"q", "", 1, 0, " , ", "", ""⟩
        [(⟨"dummy", ["general"], defaultEngineConfig, CircuitBreaker.new 0 0⟩,
          Outcome.ok [])] 0 = [] := by
  obtain ⟨hc, hs⟩ := c10_blank_categories ⟨"q", "", 1, 0, " , ", "", ""⟩
    (by decide) (by decide)
  exact ⟨by decide, by decide, hc, hs id _ 0⟩
